import Mathlib

set_option maxHeartbeats 1600000
set_option maxRecDepth 8000

/-!
Verification of the motionPath spatial-caching and curve-fitting core.

The C++ sources are shallowly embedded: machine doubles are modelled by exact
rationals (ℚ) where the code is pure branching arithmetic, and by ℝ where the
code calls `tan`/`atan`/`sqrt`.  Frame times handed to the parent-matrix cache
loops are modelled as integers (the loops step by exactly 1.0 from the request
boundaries, and the claims speak of whole frames).  Maya API accessors
(plug reads, viewport projections) are opaque oracle parameters.
-/

namespace MotionPathSpec

/-- Maya `MVector`: a 3-component vector, generic over the scalar type
(ℚ for the exact-arithmetic embeddings, ℝ where square roots occur). -/
structure MVec (α : Type) where
  x : α
  y : α
  z : α
deriving DecidableEq

instance {α} [Add α] : Add (MVec α) := ⟨fun a b => ⟨a.x + b.x, a.y + b.y, a.z + b.z⟩⟩

instance {α} [Sub α] : Sub (MVec α) := ⟨fun a b => ⟨a.x - b.x, a.y - b.y, a.z - b.z⟩⟩

instance {α} [Neg α] : Neg (MVec α) := ⟨fun a => ⟨-a.x, -a.y, -a.z⟩⟩

/-- `v * t`: Maya `MVector::operator*(double)`, componentwise scale. -/
instance {α} [Mul α] : HMul (MVec α) α (MVec α) := ⟨fun v t => ⟨v.x * t, v.y * t, v.z * t⟩⟩

instance {α} [Zero α] : Zero (MVec α) := ⟨⟨0, 0, 0⟩⟩

@[simp] theorem MVec.add_x {α} [Add α] (a b : MVec α) : (a + b).x = a.x + b.x := rfl

@[simp] theorem MVec.add_y {α} [Add α] (a b : MVec α) : (a + b).y = a.y + b.y := rfl

@[simp] theorem MVec.add_z {α} [Add α] (a b : MVec α) : (a + b).z = a.z + b.z := rfl

@[simp] theorem MVec.sub_x {α} [Sub α] (a b : MVec α) : (a - b).x = a.x - b.x := rfl

@[simp] theorem MVec.sub_y {α} [Sub α] (a b : MVec α) : (a - b).y = a.y - b.y := rfl

@[simp] theorem MVec.sub_z {α} [Sub α] (a b : MVec α) : (a - b).z = a.z - b.z := rfl

@[simp] theorem MVec.neg_x {α} [Neg α] (a : MVec α) : (-a).x = -a.x := rfl

@[simp] theorem MVec.neg_y {α} [Neg α] (a : MVec α) : (-a).y = -a.y := rfl

@[simp] theorem MVec.neg_z {α} [Neg α] (a : MVec α) : (-a).z = -a.z := rfl

@[simp] theorem MVec.smul_x {α} [Mul α] (a : MVec α) (t : α) : (a * t).x = a.x * t := rfl

@[simp] theorem MVec.smul_y {α} [Mul α] (a : MVec α) (t : α) : (a * t).y = a.y * t := rfl

@[simp] theorem MVec.smul_z {α} [Mul α] (a : MVec α) (t : α) : (a * t).z = a.z * t := rfl

@[simp] theorem MVec.zero_x {α} [Zero α] : (0 : MVec α).x = 0 := rfl

@[simp] theorem MVec.zero_y {α} [Zero α] : (0 : MVec α).y = 0 := rfl

@[simp] theorem MVec.zero_z {α} [Zero α] : (0 : MVec α).z = 0 := rfl

theorem MVec.ext_xyz {α} {u w : MVec α} (hx : u.x = w.x) (hy : u.y = w.y)
    (hz : u.z = w.z) : u = w := by
  cases u
  cases w
  dsimp only at hx hy hz
  rw [hx, hy, hz]

/-- Maya `MMatrix` (4×4 of doubles), modelled over ℚ. -/
abbrev MMat := Matrix (Fin 4) (Fin 4) ℚ

/-- The list of integer frames `a, a+1, …, b` (empty when `b < a`): the set of
values taken by a C++ loop `for (double i = a; i <= b; ++i)` on whole-frame inputs. -/
def intRange (a b : ℤ) : List ℤ :=
  (List.range (b + 1 - a).toNat).map (fun k : ℕ => a + (k : ℤ))

theorem mem_intRange {a b t : ℤ} : t ∈ intRange a b ↔ a ≤ t ∧ t ≤ b := by
  constructor
  · intro h
    obtain ⟨k, hk, hke⟩ := List.mem_map.mp h
    rw [List.mem_range] at hk
    omega
  · intro h
    refine List.mem_map.mpr ⟨(t - a).toNat, List.mem_range.mpr ?_, ?_⟩
    · omega
    · omega

theorem intRange_ne_nil {a b : ℤ} (h : a ≤ b) : intRange a b ≠ [] := by
  intro hn
  have := mem_intRange (a := a) (b := b) (t := a)
  rw [hn] at this
  simp at this
  omega

/-! ### Scene oracles

`MotionPath` reads the ancestor transform and the optional rotate-pivot /
rotate-pivot-translate vectors through Maya plugs (`getMatrixFromPlug`,
`getVectorFromPlugs`); those externals are opaque functions of the frame. -/

/-- External scene accessors used by the parent matrix cache:
`pMatrixPlugAt t` models `getMatrixFromPlug(pMatrixPlug, t)`, `rpAt`/`rptAt`
model the rotate-pivot plug reads, `usePivots` models `GlobalSettings::usePivots`. -/
structure SceneOracles where
  pMatrixPlugAt : ℤ → MMat
  rpAt : ℤ → MVec ℚ
  rptAt : ℤ → MVec ℚ
  usePivots : Bool

/-- Overwrite the translation entries `m[3][0..2]` of a matrix with a vector,
as the source does on a pivot matrix; entry `[3][3]` is left untouched. -/
def translationRow (m : MMat) (v : MVec ℚ) : MMat :=
  Matrix.of fun i j =>
    if i = 3 then (if j = 0 then v.x else if j = 1 then v.y else if j = 2 then v.z else m i j)
    else m i j

namespace MotionPath

/-- `MotionPath::getPMatrixAtTime`: the parent matrix from the plug, multiplied
on the left by the two pivot translation matrices when pivots are in use.
(`MMatrix pivotMtx;` default-constructs the identity; the second block reuses
the same matrix, overwriting only its translation row.) -/
def getPMatrixAtTime (o : SceneOracles) (t : ℤ) : MMat :=
  let m := o.pMatrixPlugAt t
  if o.usePivots then
    let pivotMtx := translationRow 1 (o.rpAt t)
    let m := pivotMtx * m
    let pivotMtx := translationRow pivotMtx (o.rptAt t)
    pivotMtx * m
  else m

end MotionPath

/-- Phase 2 of the parallel rebuild: the pure-arithmetic compose of the
pre-gathered parent matrix and pivot vectors for one frame
(fresh identity pivot matrix, translation row set, multiply; `setToIdentity`,
translation row set, multiply). -/
def phase2Compose (usePivots : Bool) (parentMatrix : MMat) (rpivot rptivot : MVec ℚ) : MMat :=
  if usePivots then
    let m := parentMatrix
    let pivotMtx := translationRow 1 rpivot
    let m := pivotMtx * m
    let pivotMtx := translationRow 1 rptivot
    pivotMtx * m
  else parentMatrix

/-- Lookup in the time→matrix cache map (`pMatrixCache.find`). -/
def cacheLookup : List (ℤ × MMat) → ℤ → Option MMat
  | [], _ => none
  | (t', m) :: rest, t => if t' = t then some m else cacheLookup rest t

/-- `pMatrixCache[t] = v`: overwrite the entry at `t`, inserting it if absent. -/
def setCacheEntry : List (ℤ × MMat) → ℤ → MMat → List (ℤ × MMat)
  | [], t, v => [(t, v)]
  | (t', m) :: rest, t, v =>
    if t' = t then (t, v) :: rest else (t', m) :: setCacheEntry rest t v

namespace MotionPath

/-- `MotionPath::ensureParentAndPivotMatrixAtTime`: insert the computed matrix
only when the time has no entry yet. -/
def ensureParentAndPivotMatrixAtTime (o : SceneOracles) (cache : List (ℤ × MMat)) (t : ℤ) :
    List (ℤ × MMat) :=
  if (cacheLookup cache t).isNone then cache ++ [(t, getPMatrixAtTime o t)] else cache

end MotionPath

/-- The sequential full-rebuild pass (`for i = startFrame..endFrame:
ensureParentAndPivotMatrixAtTime(i)`), used below the 50-frame threshold. -/
def seqCacheRange (o : SceneOracles) (cache : List (ℤ × MMat)) (a b : ℤ) : List (ℤ × MMat) :=
  (intRange a b).foldl (fun c t => MotionPath.ensureParentAndPivotMatrixAtTime o c t) cache

/-- The three-phase pipeline used above the 50-frame threshold:
(1) sequential gather of per-frame plug data, (2) parallel pure compose,
(3) sequential writeback `pMatrixCache[frames[idx]] = finalMatrices[idx]`. -/
def pipelineCacheRange (o : SceneOracles) (cache : List (ℤ × MMat)) (a b : ℤ) :
    List (ℤ × MMat) :=
  let frames := intRange a b
  let parentMatrices := frames.map o.pMatrixPlugAt
  let rpivots := frames.map o.rpAt
  let rptivots := frames.map o.rptAt
  let finalMatrices :=
    List.zipWith (fun pm rr => phase2Compose o.usePivots pm rr.1 rr.2)
      parentMatrices (List.zip rpivots rptivots)
  (List.zip frames finalMatrices).foldl (fun c fv => setCacheEntry c fv.1 fv.2) cache

/-- The per-track parent matrix cache state: the map, the tracked valid range
`[cachedRangeStart, cachedRangeEnd]`, and the validity flag. -/
structure PMState where
  cache : List (ℤ × MMat)
  cachedRangeStart : ℤ
  cachedRangeEnd : ℤ
  pMatrixCacheValid : Bool

namespace MotionPath

/-- `MotionPath::cacheParentMatrixRange(startFrame, endFrame)` (OpenMP build):
covered-range early return; incremental leading/trailing fill when the cache is
valid and non-empty; otherwise a full rebuild (three-phase pipeline above 50
frames, single sequential pass below). -/
def cacheParentMatrixRange (o : SceneOracles) (s : PMState) (startFrame endFrame : ℤ) :
    PMState :=
  if s.pMatrixCacheValid ∧ s.cachedRangeStart ≤ startFrame ∧ endFrame ≤ s.cachedRangeEnd ∧
      0 < s.cache.length then
    s
  else if s.pMatrixCacheValid ∧ 0 < s.cache.length then
    let c1 := (intRange startFrame (min (s.cachedRangeStart - 1) endFrame)).foldl
      (fun c t => ensureParentAndPivotMatrixAtTime o c t) s.cache
    let c2 := (intRange (s.cachedRangeEnd + 1) endFrame).foldl
      (fun c t => ensureParentAndPivotMatrixAtTime o c t) c1
    { cache := c2
      cachedRangeStart := if startFrame < s.cachedRangeStart then startFrame else s.cachedRangeStart
      cachedRangeEnd := if s.cachedRangeEnd < endFrame then endFrame else s.cachedRangeEnd
      pMatrixCacheValid := s.pMatrixCacheValid }
  else
    let numFrames := endFrame - startFrame + 1
    let c := if 50 < numFrames then pipelineCacheRange o s.cache startFrame endFrame
             else seqCacheRange o s.cache startFrame endFrame
    { cache := c
      cachedRangeStart := startFrame
      cachedRangeEnd := endFrame
      pMatrixCacheValid := true }

end MotionPath

/-- The state set up by the `MotionPath` constructor:
`cachedRangeStart = cachedRangeEnd = 0`, `pMatrixCacheValid = false`, empty map. -/
def initialPMState : PMState := ⟨[], 0, 0, false⟩

/-- Run a sequence of `cacheParentMatrixRange(start, end)` calls on a fresh track. -/
def runCacheRangeCalls (o : SceneOracles) (calls : List (ℤ × ℤ)) : PMState :=
  calls.foldl (fun s c => MotionPath.cacheParentMatrixRange o s c.1 c.2) initialPMState

/-! ### Basic facts about the cache map operations -/

theorem cacheLookup_append_some {c : List (ℤ × MMat)} {t : ℤ} {m : MMat}
    (h : cacheLookup c t = some m) (d : List (ℤ × MMat)) :
    cacheLookup (c ++ d) t = some m := by
  induction c with
  | nil => simp [cacheLookup] at h
  | cons p rest ih =>
    rw [List.cons_append]
    rw [cacheLookup] at h ⊢
    by_cases hp : p.1 = t
    · simp only [hp, if_true] at h ⊢
      exact h
    · simp only [hp, if_false] at h ⊢
      exact ih h

theorem cacheLookup_append_none {c : List (ℤ × MMat)} {t : ℤ}
    (h : cacheLookup c t = none) (d : List (ℤ × MMat)) :
    cacheLookup (c ++ d) t = cacheLookup d t := by
  induction c with
  | nil => simp
  | cons p rest ih =>
    rw [cacheLookup] at h
    by_cases hp : p.1 = t
    · simp [hp] at h
    · rw [List.cons_append, cacheLookup]
      simp only [hp, if_false] at h ⊢
      exact ih h

theorem ensure_ne_nil (o : SceneOracles) (c : List (ℤ × MMat)) (t : ℤ) :
    MotionPath.ensureParentAndPivotMatrixAtTime o c t ≠ [] := by
  unfold MotionPath.ensureParentAndPivotMatrixAtTime
  by_cases h : (cacheLookup c t).isNone
  · simp [h]
  · simp only [h, if_false]
    intro hc
    subst hc
    simp [cacheLookup] at h

theorem foldl_ensure_ne_nil (o : SceneOracles) (l : List ℤ) :
    ∀ c : List (ℤ × MMat), c ≠ [] ∨ l ≠ [] →
      l.foldl (fun cc t => MotionPath.ensureParentAndPivotMatrixAtTime o cc t) c ≠ [] := by
  induction l with
  | nil =>
    intro c h
    simpa using h.resolve_right (by simp)
  | cons x xs ih =>
    intro c _
    rw [List.foldl_cons]
    exact ih _ (Or.inl (ensure_ne_nil o c x))

theorem setCacheEntry_ne_nil (c : List (ℤ × MMat)) (t : ℤ) (v : MMat) :
    setCacheEntry c t v ≠ [] := by
  cases c with
  | nil => simp [setCacheEntry]
  | cons p rest =>
    rw [setCacheEntry]
    split <;> simp

theorem foldl_setCacheEntry_ne_nil (f : ℤ → MMat) (l : List ℤ) :
    ∀ c : List (ℤ × MMat), c ≠ [] ∨ l ≠ [] →
      l.foldl (fun cc t => setCacheEntry cc t (f t)) c ≠ [] := by
  induction l with
  | nil =>
    intro c h
    simpa using h.resolve_right (by simp)
  | cons x xs ih =>
    intro c _
    rw [List.foldl_cons]
    exact ih _ (Or.inl (setCacheEntry_ne_nil c x (f x)))

/-- The pipeline's phase-2 compose of the gathered per-frame inputs is exactly
the matrix the single-time path `getPMatrixAtTime` computes for that frame. -/
theorem translationRow_translationRow (m : MMat) (p q : MVec ℚ) :
    translationRow (translationRow m p) q = translationRow m q := by
  ext i j
  simp only [translationRow, Matrix.of_apply]
  split_ifs <;> rfl

theorem phase2Compose_eq_getPMatrixAtTime (o : SceneOracles) (t : ℤ) :
    phase2Compose o.usePivots (o.pMatrixPlugAt t) (o.rpAt t) (o.rptAt t) =
      MotionPath.getPMatrixAtTime o t := by
  unfold phase2Compose MotionPath.getPMatrixAtTime
  cases h : o.usePivots
  · simp
  · simp only [if_true]
    rw [translationRow_translationRow]

/-- The three-phase pipeline body is a fold of overwrites of the per-frame
`getPMatrixAtTime` values over the frame list. -/
theorem pipelineCacheRange_eq_foldl (o : SceneOracles) (c : List (ℤ × MMat)) (a b : ℤ) :
    pipelineCacheRange o c a b =
      (intRange a b).foldl
        (fun cc t => setCacheEntry cc t (MotionPath.getPMatrixAtTime o t)) c := by
  simp only [pipelineCacheRange]
  have hzip : ∀ (l : List ℤ),
      List.zipWith (fun pm rr => phase2Compose o.usePivots pm rr.1 rr.2)
        (l.map o.pMatrixPlugAt) (List.zip (l.map o.rpAt) (l.map o.rptAt)) =
        l.map (fun t => MotionPath.getPMatrixAtTime o t) := by
    intro l
    induction l with
    | nil => simp
    | cons x xs ih =>
      simp only [List.map_cons, List.zip_cons_cons, List.zipWith_cons_cons, ih]
      rw [phase2Compose_eq_getPMatrixAtTime]
  rw [hzip]
  generalize intRange a b = l
  induction l generalizing c with
  | nil => simp
  | cons x xs ih =>
    simp only [List.map_cons, List.zip_cons_cons, List.foldl_cons]
    exact ih _

/-! ### Claim C1: monotonicity of the tracked valid range -/

/-- Reachability invariant: a valid parent matrix cache is non-empty
(holds on every state produced from the fresh state by calls with
`startFrame ≤ endFrame`). -/
def StInv (s : PMState) : Prop := s.pMatrixCacheValid = true → s.cache ≠ []

theorem cacheRange_step_inv (o : SceneOracles) (s : PMState) (a b : ℤ)
    (hab : a ≤ b) (hInv : StInv s) : StInv (MotionPath.cacheParentMatrixRange o s a b) := by
  unfold MotionPath.cacheParentMatrixRange
  by_cases h1 : s.pMatrixCacheValid = true ∧ s.cachedRangeStart ≤ a ∧ b ≤ s.cachedRangeEnd ∧
      0 < s.cache.length
  · rw [if_pos h1]
    exact hInv
  · rw [if_neg h1]
    by_cases h2 : s.pMatrixCacheValid = true ∧ 0 < s.cache.length
    · rw [if_pos h2]
      intro _
      dsimp only
      exact foldl_ensure_ne_nil o _ _ (Or.inl (foldl_ensure_ne_nil o _ _
        (Or.inl (List.length_pos.mp h2.2))))
    · rw [if_neg h2]
      intro _
      dsimp only
      by_cases h50 : 50 < b - a + 1
      · rw [if_pos h50, pipelineCacheRange_eq_foldl]
        exact foldl_setCacheEntry_ne_nil _ _ _ (Or.inr (intRange_ne_nil hab))
      · rw [if_neg h50]
        exact foldl_ensure_ne_nil o _ _ (Or.inr (intRange_ne_nil hab))

theorem cacheRange_step_mono (o : SceneOracles) (s : PMState) (a b : ℤ)
    (hInv : StInv s) (hv : s.pMatrixCacheValid = true) :
    (MotionPath.cacheParentMatrixRange o s a b).cachedRangeStart ≤ s.cachedRangeStart ∧
    s.cachedRangeEnd ≤ (MotionPath.cacheParentMatrixRange o s a b).cachedRangeEnd := by
  have hlen : 0 < s.cache.length := List.length_pos.mpr (hInv hv)
  unfold MotionPath.cacheParentMatrixRange
  by_cases h1 : s.pMatrixCacheValid = true ∧ s.cachedRangeStart ≤ a ∧ b ≤ s.cachedRangeEnd ∧
      0 < s.cache.length
  · rw [if_pos h1]
    exact ⟨le_refl _, le_refl _⟩
  · rw [if_neg h1, if_pos ⟨hv, hlen⟩]
    dsimp only
    constructor
    · split_ifs <;> omega
    · split_ifs <;> omega

theorem foldl_calls_inv (o : SceneOracles) (calls : List (ℤ × ℤ))
    (hwf : ∀ c ∈ calls, c.1 ≤ c.2) :
    ∀ s : PMState, StInv s →
      StInv (calls.foldl (fun s c => MotionPath.cacheParentMatrixRange o s c.1 c.2) s) := by
  induction calls with
  | nil => intro s h; exact h
  | cons x xs ih =>
    intro s h
    rw [List.foldl_cons]
    exact ih (fun c hc => hwf c (List.mem_cons_of_mem x hc)) _
      (cacheRange_step_inv o s x.1 x.2 (hwf x (List.mem_cons_self x xs)) h)

theorem initial_inv : StInv initialPMState := by
  intro h
  simp [initialPMState] at h

/-- Claim C1 (amended: every call in the sequence has `startFrame ≤ endFrame`):
for every track, across any sequence of `cacheParentMatrixRange(startFrame,
endFrame)` calls with no intervening `clearParentMatrixCache`, once the cache is
valid the tracked range is monotone — `cachedRangeStart` never increases and
`cachedRangeEnd` never decreases from one call to the next. -/
theorem cacheParentMatrixRange_range_monotone (o : SceneOracles) (calls : List (ℤ × ℤ))
    (hwf : ∀ c ∈ calls, c.1 ≤ c.2) (i : ℕ)
    (hv : (runCacheRangeCalls o (calls.take i)).pMatrixCacheValid = true) :
    (runCacheRangeCalls o (calls.take (i + 1))).cachedRangeStart ≤
      (runCacheRangeCalls o (calls.take i)).cachedRangeStart ∧
    (runCacheRangeCalls o (calls.take i)).cachedRangeEnd ≤
      (runCacheRangeCalls o (calls.take (i + 1))).cachedRangeEnd := by
  by_cases hi : i < calls.length
  · have htake : calls.take (i + 1) = calls.take i ++ [calls[i]] := by
      rw [List.take_succ]
      simp [List.getElem?_eq_getElem hi]
    rw [htake]
    unfold runCacheRangeCalls
    rw [List.foldl_append]
    simp only [List.foldl_cons, List.foldl_nil]
    exact cacheRange_step_mono o _ calls[i].1 calls[i].2
      (foldl_calls_inv o (calls.take i)
        (fun c hc => hwf c (List.take_subset i calls hc)) _ initial_inv)
      hv
  · have heq : calls.take (i + 1) = calls.take i := by
      rw [List.take_of_length_le (by omega), List.take_of_length_le (by omega)]
    rw [heq]
    exact ⟨le_refl _, le_refl _⟩

/-- Concrete oracles for witnesses and counterexamples: identity parent matrix,
zero pivots, pivots disabled. -/
def oZero : SceneOracles := ⟨fun _ => 1, fun _ => 0, fun _ => 0, false⟩

/-- Claim C1, counterexample to the original statement: a degenerate call
`cacheParentMatrixRange(10, 5)` leaves a valid but empty cache; the next call
`cacheParentMatrixRange(20, 30)` then takes the full-rebuild path and moves
`cachedRangeStart` from 10 up to 20, so `cachedRangeStart` increases between
two calls with no intervening clear. -/
theorem cacheParentMatrixRange_monotone_counterexample :
    (runCacheRangeCalls oZero [((10 : ℤ), (5 : ℤ))]).pMatrixCacheValid = true ∧
    ¬ ((runCacheRangeCalls oZero [((10 : ℤ), (5 : ℤ)), (20, 30)]).cachedRangeStart ≤
        (runCacheRangeCalls oZero [((10 : ℤ), (5 : ℤ))]).cachedRangeStart) := by
  decide

/-- Witness for C1: a concrete two-call well-formed sequence where the second
call strictly extends a valid cache. -/
theorem cacheParentMatrixRange_range_monotone_witness :
    (runCacheRangeCalls oZero ([((0 : ℤ), (5 : ℤ)), (2, 7)].take (1 + 1))).cachedRangeStart ≤
      (runCacheRangeCalls oZero ([((0 : ℤ), (5 : ℤ)), (2, 7)].take 1)).cachedRangeStart ∧
    (runCacheRangeCalls oZero ([((0 : ℤ), (5 : ℤ)), (2, 7)].take 1)).cachedRangeEnd ≤
      (runCacheRangeCalls oZero ([((0 : ℤ), (5 : ℤ)), (2, 7)].take (1 + 1))).cachedRangeEnd :=
  cacheParentMatrixRange_range_monotone oZero [((0 : ℤ), (5 : ℤ)), (2, 7)]
    (by decide) 1 (by decide)

/-! ### Lookup lemmas for the fold operations -/

theorem ensure_isSome_mono (o : SceneOracles) {c : List (ℤ × MMat)} {t : ℤ} (t' : ℤ)
    (h : (cacheLookup c t).isSome = true) :
    (cacheLookup (MotionPath.ensureParentAndPivotMatrixAtTime o c t') t).isSome = true := by
  unfold MotionPath.ensureParentAndPivotMatrixAtTime
  by_cases hn : (cacheLookup c t').isNone
  · rw [if_pos hn]
    obtain ⟨m, hm⟩ := Option.isSome_iff_exists.mp h
    rw [cacheLookup_append_some hm]
    rfl
  · rw [if_neg hn]
    exact h

theorem ensure_self_isSome (o : SceneOracles) (c : List (ℤ × MMat)) (t : ℤ) :
    (cacheLookup (MotionPath.ensureParentAndPivotMatrixAtTime o c t) t).isSome = true := by
  unfold MotionPath.ensureParentAndPivotMatrixAtTime
  rcases hx : cacheLookup c t with _ | m
  · rw [if_pos Option.isNone_none, cacheLookup_append_none hx]
    simp [cacheLookup]
  · rw [if_neg (by simp), hx]
    rfl

theorem foldl_ensure_isSome_mono (o : SceneOracles) (l : List ℤ) :
    ∀ (c : List (ℤ × MMat)) (t : ℤ), (cacheLookup c t).isSome = true →
      (cacheLookup (l.foldl (fun cc u => MotionPath.ensureParentAndPivotMatrixAtTime o cc u) c)
        t).isSome = true := by
  induction l with
  | nil => intro c t h; simpa using h
  | cons x xs ih =>
    intro c t h
    rw [List.foldl_cons]
    exact ih _ t (ensure_isSome_mono o x h)

theorem foldl_ensure_mem_isSome (o : SceneOracles) (l : List ℤ) :
    ∀ (c : List (ℤ × MMat)) (t : ℤ), t ∈ l →
      (cacheLookup (l.foldl (fun cc u => MotionPath.ensureParentAndPivotMatrixAtTime o cc u) c)
        t).isSome = true := by
  induction l with
  | nil => intro c t h; simp at h
  | cons x xs ih =>
    intro c t h
    rw [List.foldl_cons]
    rcases List.mem_cons.mp h with rfl | hxs
    · exact foldl_ensure_isSome_mono o xs _ t (ensure_self_isSome o c t)
    · exact ih _ t hxs

theorem setCacheEntry_lookup_self (c : List (ℤ × MMat)) (t : ℤ) (v : MMat) :
    cacheLookup (setCacheEntry c t v) t = some v := by
  induction c with
  | nil => simp [setCacheEntry, cacheLookup]
  | cons p rest ih =>
    rw [setCacheEntry]
    by_cases h : p.1 = t
    · rw [if_pos h]
      simp [cacheLookup]
    · rw [if_neg h, cacheLookup, if_neg h]
      exact ih

theorem setCacheEntry_lookup_ne (c : List (ℤ × MMat)) {t t' : ℤ} (v : MMat) (h : t' ≠ t) :
    cacheLookup (setCacheEntry c t' v) t = cacheLookup c t := by
  induction c with
  | nil => simp [setCacheEntry, cacheLookup, h]
  | cons p rest ih =>
    rw [setCacheEntry]
    by_cases hp : p.1 = t'
    · rw [if_pos hp, cacheLookup, cacheLookup, if_neg h, if_neg (by rw [hp]; exact h)]
    · rw [if_neg hp, cacheLookup, cacheLookup]
      by_cases hq : p.1 = t
      · rw [if_pos hq, if_pos hq]
      · rw [if_neg hq, if_neg hq]
        exact ih

/-- Lookup after the writeback fold: every frame in the list holds the
fold's per-frame value, all other times are untouched. -/
theorem foldl_setEntry_lookup (f : ℤ → MMat) (l : List ℤ) :
    ∀ (c : List (ℤ × MMat)) (t : ℤ),
      cacheLookup (l.foldl (fun cc u => setCacheEntry cc u (f u)) c) t =
        if t ∈ l then some (f t) else cacheLookup c t := by
  induction l with
  | nil => intro c t; simp
  | cons x xs ih =>
    intro c t
    rw [List.foldl_cons, ih]
    by_cases hxs : t ∈ xs
    · rw [if_pos hxs, if_pos (List.mem_cons_of_mem x hxs)]
    · rw [if_neg hxs]
      by_cases hx : t = x
      · subst hx
        rw [if_pos (List.mem_cons_self t xs), setCacheEntry_lookup_self]
      · rw [if_neg (by simp [List.mem_cons, hx, hxs]),
          setCacheEntry_lookup_ne c (f x) (fun he => hx he.symm)]

/-- Lookup after the ensure fold, assuming every pre-existing entry agrees with
the per-frame value: same result as the writeback fold. -/
theorem foldl_ensure_lookup_consistent (o : SceneOracles) (l : List ℤ) :
    ∀ c : List (ℤ × MMat),
      (∀ t m, cacheLookup c t = some m → m = MotionPath.getPMatrixAtTime o t) →
      ∀ t : ℤ,
        cacheLookup (l.foldl (fun cc u => MotionPath.ensureParentAndPivotMatrixAtTime o cc u) c) t =
          if t ∈ l then some (MotionPath.getPMatrixAtTime o t) else cacheLookup c t := by
  induction l with
  | nil => intro c _ t; simp
  | cons x xs ih =>
    intro c hcons t
    have hcons' : ∀ u m,
        cacheLookup (MotionPath.ensureParentAndPivotMatrixAtTime o c x) u = some m →
          m = MotionPath.getPMatrixAtTime o u := by
      intro u m hm
      unfold MotionPath.ensureParentAndPivotMatrixAtTime at hm
      by_cases hn : (cacheLookup c x).isNone
      · rw [if_pos hn] at hm
        rcases hx : cacheLookup c u with _ | m'
        · rw [cacheLookup_append_none hx] at hm
          rw [cacheLookup] at hm
          by_cases hxu : x = u
          · rw [if_pos hxu] at hm
            subst hxu
            exact (Option.some_injective _ hm).symm
          · rw [if_neg hxu] at hm
            simp [cacheLookup] at hm
        · rw [cacheLookup_append_some hx] at hm
          exact hcons u m (by rw [hx, hm])
      · rw [if_neg hn] at hm
        exact hcons u m hm
    rw [List.foldl_cons, ih _ hcons']
    by_cases hxs : t ∈ xs
    · rw [if_pos hxs, if_pos (List.mem_cons_of_mem x hxs)]
    · rw [if_neg hxs]
      by_cases hx : t = x
      · subst hx
        rw [if_pos (List.mem_cons_self t xs)]
        obtain ⟨m, hm⟩ := Option.isSome_iff_exists.mp (ensure_self_isSome o c t)
        rw [hm, hcons' t m hm]
      · rw [if_neg (by simp [List.mem_cons, hx, hxs])]
        unfold MotionPath.ensureParentAndPivotMatrixAtTime
        by_cases hn : (cacheLookup c x).isNone
        · rw [if_pos hn]
          rcases hx2 : cacheLookup c t with _ | m'
          · rw [cacheLookup_append_none hx2, cacheLookup, if_neg (fun he => hx he.symm)]
            rfl
          · rw [cacheLookup_append_some hx2]
        · rw [if_neg hn]

/-! ### Claim C9: the three-phase pipeline refines the sequential pass -/

/-- Claim C9: for a full rebuild over a range of more than 50 frames, the
three-phase gather/compose/writeback pipeline stores, at every time, exactly
what the sequential single-pass path (`ensureParentAndPivotMatrixAtTime` /
`getPMatrixAtTime`) would store there, given the same per-frame external
inputs — i.e. provided every pre-existing cache entry already agrees with the
current external inputs (a stale entry is, by definition, data from different
inputs). -/
theorem pipeline_refines_sequential (o : SceneOracles) (c : List (ℤ × MMat)) (a b : ℤ)
    (hcons : ∀ t m, cacheLookup c t = some m → m = MotionPath.getPMatrixAtTime o t)
    (_hthreshold : 50 < b - a + 1) :
    ∀ t : ℤ, cacheLookup (pipelineCacheRange o c a b) t = cacheLookup (seqCacheRange o c a b) t := by
  intro t
  rw [pipelineCacheRange_eq_foldl, foldl_setEntry_lookup]
  unfold seqCacheRange
  rw [foldl_ensure_lookup_consistent o _ c hcons t]

/-- Witness for C9: a 52-frame rebuild on an empty cache, compared at frame 7. -/
theorem pipeline_refines_sequential_witness :
    cacheLookup (pipelineCacheRange oZero [] 0 51) 7 = cacheLookup (seqCacheRange oZero [] 0 51) 7 :=
  pipeline_refines_sequential oZero [] 0 51
    (fun t m hm => by simp [cacheLookup] at hm) (by decide) 7

/-! ### Claim C2: request coverage and contiguity of the tracked range -/

/-- Contiguity invariant of a parent matrix cache state: when valid, the
tracked range is well-formed and every whole frame in it has an entry. -/
def PMCoverInv (s : PMState) : Prop :=
  s.pMatrixCacheValid = true →
    s.cachedRangeStart ≤ s.cachedRangeEnd ∧
    ∀ t : ℤ, s.cachedRangeStart ≤ t → t ≤ s.cachedRangeEnd →
      (cacheLookup s.cache t).isSome = true

/-- Claim C2 (amended: the request must not be disjoint from and strictly below
the valid range — `endFrame ≥ cachedRangeStart − 1` whenever the cache is
valid): after `cacheParentMatrixRange(startFrame, endFrame)` returns, every
whole frame in `[startFrame, endFrame]` has an entry, and the updated tracked
range is again contiguous.  (The disjoint-below case excluded here is exactly
the counterexample: the incremental branch fills only up to the requested
`endFrame` and never the gap `[endFrame+1, cachedRangeStart−1]`.) -/
theorem cacheParentMatrixRange_covers (o : SceneOracles) (s : PMState) (a b : ℤ)
    (hInv : PMCoverInv s) (hab : a ≤ b)
    (hnd : s.pMatrixCacheValid = true → s.cachedRangeStart - 1 ≤ b) :
    (∀ t : ℤ, a ≤ t → t ≤ b →
      (cacheLookup (MotionPath.cacheParentMatrixRange o s a b).cache t).isSome = true) ∧
    PMCoverInv (MotionPath.cacheParentMatrixRange o s a b) := by
  unfold MotionPath.cacheParentMatrixRange
  by_cases h1 : s.pMatrixCacheValid = true ∧ s.cachedRangeStart ≤ a ∧ b ≤ s.cachedRangeEnd ∧
      0 < s.cache.length
  · rw [if_pos h1]
    obtain ⟨hv, hsa, hbe, _⟩ := h1
    obtain ⟨hse, hcov⟩ := hInv hv
    exact ⟨fun t h1t h2t => hcov t (by omega) (by omega), hInv⟩
  · rw [if_neg h1]
    by_cases h2 : s.pMatrixCacheValid = true ∧ 0 < s.cache.length
    · rw [if_pos h2]
      obtain ⟨hse, hcov⟩ := hInv h2.1
      have hnd' := hnd h2.1
      constructor
      · intro t h1t h2t
        dsimp only
        rcases le_or_lt t (s.cachedRangeStart - 1) with hle | hgt
        · exact foldl_ensure_isSome_mono o _ _ _
            (foldl_ensure_mem_isSome o _ _ _ (mem_intRange.mpr ⟨h1t, by omega⟩))
        · rcases le_or_lt t s.cachedRangeEnd with hle2 | hgt2
          · exact foldl_ensure_isSome_mono o _ _ _
              (foldl_ensure_isSome_mono o _ _ _ (hcov t (by omega) hle2))
          · exact foldl_ensure_mem_isSome o _ _ _ (mem_intRange.mpr ⟨by omega, h2t⟩)
      · intro _
        dsimp only
        constructor
        · split_ifs <;> omega
        · intro t ht1 ht2
          rcases lt_or_le t s.cachedRangeStart with hlt | hge
          · have ha : a ≤ t := by split_ifs at ht1 <;> omega
            exact foldl_ensure_isSome_mono o _ _ _
              (foldl_ensure_mem_isSome o _ _ _ (mem_intRange.mpr ⟨ha, by omega⟩))
          · rcases le_or_lt t s.cachedRangeEnd with hle2 | hgt2
            · exact foldl_ensure_isSome_mono o _ _ _
                (foldl_ensure_isSome_mono o _ _ _ (hcov t hge hle2))
            · have hb : t ≤ b := by split_ifs at ht2 <;> omega
              exact foldl_ensure_mem_isSome o _ _ _ (mem_intRange.mpr ⟨by omega, hb⟩)
    · rw [if_neg h2]
      dsimp only
      by_cases h50 : 50 < b - a + 1
      · rw [if_pos h50]
        constructor
        · intro t h1t h2t
          rw [pipelineCacheRange_eq_foldl, foldl_setEntry_lookup,
            if_pos (mem_intRange.mpr ⟨h1t, h2t⟩)]
          rfl
        · intro _
          refine ⟨hab, fun t ht1 ht2 => ?_⟩
          rw [pipelineCacheRange_eq_foldl, foldl_setEntry_lookup,
            if_pos (mem_intRange.mpr ⟨ht1, ht2⟩)]
          rfl
      · rw [if_neg h50]
        unfold seqCacheRange
        constructor
        · intro t h1t h2t
          exact foldl_ensure_mem_isSome o _ _ _ (mem_intRange.mpr ⟨h1t, h2t⟩)
        · intro _
          exact ⟨hab, fun t ht1 ht2 =>
            foldl_ensure_mem_isSome o _ _ _ (mem_intRange.mpr ⟨ht1, ht2⟩)⟩

/-- Claim C2, counterexample to the original statement: after
`cacheParentMatrixRange(10, 20)` followed by `cacheParentMatrixRange(1, 5)` —
a request disjoint from and below the cached range — the tracked range is
`[1, 20]` but frame 6 has no entry: the valid range is not contiguous. -/
theorem cacheParentMatrixRange_covers_counterexample :
    (runCacheRangeCalls oZero [((10 : ℤ), (20 : ℤ)), (1, 5)]).pMatrixCacheValid = true ∧
    (runCacheRangeCalls oZero [((10 : ℤ), (20 : ℤ)), (1, 5)]).cachedRangeStart = 1 ∧
    (runCacheRangeCalls oZero [((10 : ℤ), (20 : ℤ)), (1, 5)]).cachedRangeEnd = 20 ∧
    (cacheLookup (runCacheRangeCalls oZero [((10 : ℤ), (20 : ℤ)), (1, 5)]).cache 6).isSome
      = false := by
  decide

/-- Witness for C2: a first fill of `[2, 4]` from the fresh state covers the
request range and restores contiguity. -/
theorem cacheParentMatrixRange_covers_witness :
    (∀ t : ℤ, 2 ≤ t → t ≤ 4 →
      (cacheLookup (MotionPath.cacheParentMatrixRange oZero initialPMState 2 4).cache t).isSome
        = true) ∧
    PMCoverInv (MotionPath.cacheParentMatrixRange oZero initialPMState 2 4) :=
  cacheParentMatrixRange_covers oZero initialPMState 2 4
    (fun h => absurd h (by decide)) (by decide) (fun h => absurd h (by decide))

/-! ### Claim C10: adding a key at a world position round-trips through the
inverse parent matrix -/

/-- `MotionPath::multPosByParentMatrix`: `vec * mat` (Maya's directional
vector–matrix product through the upper 3×3 block) plus the matrix's
translation row `mat[3][0..2]` — i.e. the affine application of `mat`. -/
def multPosByParentMatrix (vec : MVec ℚ) (mat : MMat) : MVec ℚ :=
  ⟨vec.x * mat 0 0 + vec.y * mat 1 0 + vec.z * mat 2 0 + mat 3 0,
   vec.x * mat 0 1 + vec.y * mat 1 1 + vec.z * mat 2 1 + mat 3 1,
   vec.x * mat 0 2 + vec.y * mat 1 2 + vec.z * mat 2 2 + mat 3 2⟩

/-- The matrix `pMatrixCache[time]` right after
`ensureParentAndPivotMatrixAtTime(time)` (always present). -/
def cachedParentMatrixAt (o : SceneOracles) (cache : List (ℤ × MMat)) (t : ℤ) : MMat :=
  (cacheLookup (MotionPath.ensureParentAndPivotMatrixAtTime o cache t) t).getD 1

namespace MotionPath

/-- The local value `pos` computed by `MotionPath::addKeyFrameAtTime` in its
`position != NULL` branch — the requested world position transformed by the
inverse of the cached parent matrix at that time — which is then written to the
three translation curves (via `addKeyframe` or `setValue`). -/
noncomputable def addKeyFrameAtTimeLocalPos (o : SceneOracles) (cache : List (ℤ × MMat))
    (t : ℤ) (position : MVec ℚ) : MVec ℚ :=
  multPosByParentMatrix position (cachedParentMatrixAt o cache t)⁻¹

end MotionPath

/-- The homogeneous point row `(x, y, z, 1)` of a vector. -/
def ptRow (v : MVec ℚ) : Fin 4 → ℚ := ![v.x, v.y, v.z, 1]

theorem multPos_ptRow (v : MVec ℚ) (A : MMat)
    (hA : ∀ i : Fin 4, A i 3 = if i = 3 then 1 else 0) :
    ptRow (multPosByParentMatrix v A) = Matrix.vecMul (ptRow v) A := by
  funext j
  fin_cases j <;>
    simp [ptRow, multPosByParentMatrix, Matrix.vecMul, Matrix.dotProduct,
      Fin.sum_univ_four, hA]

theorem inv_affine (A : MMat) (hA : ∀ i : Fin 4, A i 3 = if i = 3 then 1 else 0)
    (hU : IsUnit A) : ∀ i : Fin 4, A⁻¹ i 3 = if i = 3 then 1 else 0 := by
  have hdet : IsUnit A.det := (Matrix.isUnit_iff_isUnit_det A).mp hU
  have hinv : A⁻¹ * A = 1 := Matrix.nonsing_inv_mul A hdet
  intro i
  have hcomp : (A⁻¹ * A) i 3 = (1 : MMat) i 3 := by rw [hinv]
  rw [Matrix.mul_apply] at hcomp
  simpa [Fin.sum_univ_four, hA, Matrix.one_apply] using hcomp

/-- Claim C10: when `addKeyFrameAtTime` is called with a non-null world
position, the value written to the translation curves is the position
transformed by the inverse cached parent matrix, so re-applying the cached
parent matrix at the same time recovers the requested world position exactly
(for an invertible affine parent matrix, which Maya transform matrices are). -/
theorem addKeyFrameAtTime_world_roundtrip (o : SceneOracles) (cache : List (ℤ × MMat))
    (t : ℤ) (position : MVec ℚ)
    (haff : ∀ i : Fin 4, (cachedParentMatrixAt o cache t) i 3 = if i = 3 then 1 else 0)
    (hU : IsUnit (cachedParentMatrixAt o cache t)) :
    multPosByParentMatrix (MotionPath.addKeyFrameAtTimeLocalPos o cache t position)
      (cachedParentMatrixAt o cache t) = position := by
  unfold MotionPath.addKeyFrameAtTimeLocalPos
  have hdet : IsUnit (cachedParentMatrixAt o cache t).det :=
    (Matrix.isUnit_iff_isUnit_det _).mp hU
  have h1 : ptRow (multPosByParentMatrix position (cachedParentMatrixAt o cache t)⁻¹) =
      Matrix.vecMul (ptRow position) (cachedParentMatrixAt o cache t)⁻¹ :=
    multPos_ptRow _ _ (inv_affine _ haff hU)
  have h2 : ptRow (multPosByParentMatrix
        (multPosByParentMatrix position (cachedParentMatrixAt o cache t)⁻¹)
        (cachedParentMatrixAt o cache t)) =
      Matrix.vecMul (ptRow (multPosByParentMatrix position
        (cachedParentMatrixAt o cache t)⁻¹)) (cachedParentMatrixAt o cache t) :=
    multPos_ptRow _ _ haff
  rw [h1, Matrix.vecMul_vecMul, Matrix.nonsing_inv_mul _ hdet, Matrix.vecMul_one] at h2
  have hx := congrFun h2 0
  have hy := congrFun h2 1
  have hz := congrFun h2 2
  simp only [ptRow, Matrix.cons_val_zero, Matrix.cons_val_one, Matrix.head_cons,
    Matrix.cons_val_two, Matrix.tail_cons] at hx hy hz
  cases hres : multPosByParentMatrix
      (multPosByParentMatrix position (cachedParentMatrixAt o cache t)⁻¹)
      (cachedParentMatrixAt o cache t)
  cases position
  rw [hres] at hx hy hz
  simp only at hx hy hz
  simp [hx, hy, hz]

/-- Witness for C10: round trip of the world position `(1, 2, 3)` at frame 0
through a fresh cache with the identity parent matrix. -/
theorem addKeyFrameAtTime_world_roundtrip_witness :
    multPosByParentMatrix (MotionPath.addKeyFrameAtTimeLocalPos oZero [] 0 ⟨1, 2, 3⟩)
      (cachedParentMatrixAt oZero [] 0) = ⟨1, 2, 3⟩ := by
  have hM : cachedParentMatrixAt oZero [] 0 = 1 := by
    simp [cachedParentMatrixAt, MotionPath.ensureParentAndPivotMatrixAtTime, cacheLookup,
      MotionPath.getPMatrixAtTime, oZero]
  exact addKeyFrameAtTime_world_roundtrip oZero [] 0 ⟨1, 2, 3⟩
    (by intro i; rw [hM]; fin_cases i <;> simp [Matrix.one_apply])
    (by rw [hM]; exact isUnit_one)

/-! ### Animation curves and composite keyframes -/

/-- `Keyframe::Axis`. -/
inductive Axis
  | kAxisX
  | kAxisY
  | kAxisZ
deriving DecidableEq

/-- `Keyframe::Tangent`. -/
inductive Tangent
  | kInTangent
  | kOutTangent
deriving DecidableEq

/-- One key of a Maya animation curve, with the data the core reads from it:
its time, its lock flag, and its tangent reads in both representations
(`none` models a failed `MStatus` read). -/
structure CurveKey where
  time : ℚ
  tangentsLocked : Bool
  inTangentAW : Option (ℝ × ℝ)
  outTangentAW : Option (ℝ × ℝ)
  inTangentXY : Option (ℝ × ℝ)
  outTangentXY : Option (ℝ × ℝ)

/-- The slice of `MFnAnimCurve` the core depends on: the key list, whether the
curve kind is animatable (`isCurveTypeAnimatable(animCurveType())`), and the
weighted-tangent flag (`isWeighted()`). -/
structure MFnAnimCurve where
  keys : List CurveKey
  animatable : Bool
  weighted : Bool

def MFnAnimCurve.numKeys (c : MFnAnimCurve) : ℕ := c.keys.length

/-- `curve.getTangent(i, angle, weight, isIn)`. -/
def MFnAnimCurve.getTangentAW (c : MFnAnimCurve) (i : ℕ) (isIn : Bool) : Option (ℝ × ℝ) :=
  (c.keys.get? i).bind (fun k => if isIn then k.inTangentAW else k.outTangentAW)

/-- `curve.getTangent(i, x, y, isIn)`. -/
def MFnAnimCurve.getTangentXY (c : MFnAnimCurve) (i : ℕ) (isIn : Bool) : Option (ℝ × ℝ) :=
  (c.keys.get? i).bind (fun k => if isIn then k.inTangentXY else k.outTangentXY)

/-- `curve.find(time, index)`: index of the key at exactly this time. -/
def MFnAnimCurve.findKeyIndex (c : MFnAnimCurve) (time : ℚ) : Option ℕ :=
  c.keys.findIdx? (fun k => k.time == time)

/-- In-place update of the `i`-th list element (`std::vector`/curve key write). -/
def listModify {α : Type} : List α → ℕ → (α → α) → List α
  | [], _, _ => []
  | a :: as, 0, f => f a :: as
  | a :: as, n + 1, f => a :: listModify as n f

theorem listModify_get?_self {α : Type} (l : List α) (i : ℕ) (f : α → α) (a : α)
    (h : l.get? i = some a) : (listModify l i f).get? i = some (f a) := by
  induction l generalizing i with
  | nil => simp at h
  | cons x xs ih =>
    cases i with
    | zero =>
      simp only [List.get?] at h
      cases h
      rfl
    | succ n =>
      simp only [List.get?] at h
      exact ih n h

/-- `curve.setTangent(i, angle, weight, isIn, change)`. -/
def MFnAnimCurve.setTangentAW (c : MFnAnimCurve) (i : ℕ) (p : ℝ × ℝ) (isIn : Bool) :
    MFnAnimCurve :=
  { c with keys := listModify c.keys i (fun k =>
      if isIn then { k with inTangentAW := some p } else { k with outTangentAW := some p }) }

/-- `curve.setTangent(i, x, y, isIn, change)`. -/
def MFnAnimCurve.setTangentXY (c : MFnAnimCurve) (i : ℕ) (p : ℝ × ℝ) (isIn : Bool) :
    MFnAnimCurve :=
  { c with keys := listModify c.keys i (fun k =>
      if isIn then { k with inTangentXY := some p } else { k with outTangentXY := some p }) }

/-- The composite keyframe record (`Keyframe`), with the defaults of its
C++ constructor (declarations touching its ℝ-valued fields are marked
noncomputable only because Lean's exact reals carry no executable code). -/
structure Keyframe where
  id : ℤ
  time : ℚ
  tangentsLocked : Bool
  xKeyId : ℤ
  yKeyId : ℤ
  zKeyId : ℤ
  xRotKeyId : ℤ
  yRotKeyId : ℤ
  zRotKeyId : ℤ
  showInTangent : Bool
  showOutTangent : Bool
  selectedFromTool : Bool
  inTangent : MVec ℝ
  outTangent : MVec ℝ
  position : MVec ℝ
  worldPosition : MVec ℝ
  inTangentWorld : MVec ℝ
  outTangentWorld : MVec ℝ
  inTangentWorldFromCurve : MVec ℝ
  outTangentWorldFromCurve : MVec ℝ

/-- `Keyframe::Keyframe()`: id −1, all per-axis key ids −1, tangents locked,
both handles shown, not selected. -/
noncomputable def Keyframe.mkDefault : Keyframe :=
  ⟨-1, 0, true, -1, -1, -1, -1, -1, -1, true, true, false, 0, 0, 0, 0, 0, 0, 0, 0⟩

/-- `Keyframe::setTangentValue(value, axisName, tangentName)`. -/
def Keyframe.setTangentValue (kf : Keyframe) (value : ℝ) (axisName : Axis)
    (tangentName : Tangent) : Keyframe :=
  match axisName with
  | Axis.kAxisX =>
    match tangentName with
    | Tangent.kInTangent => { kf with inTangent := { kf.inTangent with x := value } }
    | Tangent.kOutTangent => { kf with outTangent := { kf.outTangent with x := value } }
  | Axis.kAxisY =>
    match tangentName with
    | Tangent.kInTangent => { kf with inTangent := { kf.inTangent with y := value } }
    | Tangent.kOutTangent => { kf with outTangent := { kf.outTangent with y := value } }
  | Axis.kAxisZ =>
    match tangentName with
    | Tangent.kInTangent => { kf with inTangent := { kf.inTangent with z := value } }
    | Tangent.kOutTangent => { kf with outTangent := { kf.outTangent with z := value } }

/-- `Keyframe::setTangent(keyIndex, curve, axisName, tangentName)`: read the
curve tangent in its stored representation and convert to the canonical local
value — non-weighted `tan(angle) * weight`, weighted `y / 3`; a failed read
defaults to 0. -/
noncomputable def Keyframe.setTangent (kf : Keyframe) (keyIndex : ℕ) (curve : MFnAnimCurve)
    (axisName : Axis) (tangentName : Tangent) : Keyframe :=
  let isIn : Bool := match tangentName with
    | Tangent.kInTangent => true
    | Tangent.kOutTangent => false
  let tangentVal : ℝ :=
    if ¬ curve.weighted then
      match curve.getTangentAW keyIndex isIn with
      | none => 0
      | some aw => Real.tan aw.1 * aw.2
    else
      match curve.getTangentXY keyIndex isIn with
      | none => 0
      | some xy => xy.2 / 3
  kf.setTangentValue tangentVal axisName tangentName

/-- `Keyframe::setKeyId(id, axisName)`. -/
def Keyframe.setKeyId (kf : Keyframe) (idv : ℤ) (axisName : Axis) : Keyframe :=
  match axisName with
  | Axis.kAxisX => { kf with xKeyId := idv }
  | Axis.kAxisY => { kf with yKeyId := idv }
  | Axis.kAxisZ => { kf with zKeyId := idv }

/-- `Keyframe::setRotKeyId(id, axisName)`. -/
def Keyframe.setRotKeyId (kf : Keyframe) (idv : ℤ) (axisName : Axis) : Keyframe :=
  match axisName with
  | Axis.kAxisX => { kf with xRotKeyId := idv }
  | Axis.kAxisY => { kf with yRotKeyId := idv }
  | Axis.kAxisZ => { kf with zRotKeyId := idv }

namespace MotionPath

/-- `MotionPath::setTangentValue(value, key, curve, tangentId, time, change)`:
find the key index at `time`; bail out on a single-key curve or a missed find;
negate the incoming value for the in-handle; then write the tangent back —
non-weighted as `(atan(value * weight), weight)`, weighted as
`(x * secondsToUiUnits, value * 3)`.  `uiUnitsPerSecond` models
`MTime(1.0, MTime::kSeconds).as(MTime::uiUnit())`. -/
noncomputable def setTangentValue (value : ℝ) (_keyParam : ℤ) (curve : MFnAnimCurve)
    (tangentId : Tangent) (time : ℚ) (uiUnitsPerSecond : ℝ) : MFnAnimCurve :=
  match curve.findKeyIndex time with
  | none => curve
  | some index =>
    if curve.numKeys ≤ 1 then curve
    else
      let isIn : Bool := match tangentId with
        | Tangent.kInTangent => true
        | Tangent.kOutTangent => false
      let value := if isIn then -value else value
      if ¬ curve.weighted then
        match curve.getTangentAW index isIn with
        | none => curve
        | some aw => curve.setTangentAW index (Real.arctan (value * aw.2), aw.2) isIn
      else
        match curve.getTangentXY index isIn with
        | none => curve
        | some xy => curve.setTangentXY index (xy.1 * uiUnitsPerSecond, value * 3) isIn

end MotionPath

/-! ### Claim C3: tangent conversion and its round trip -/

/-- Claim C3 (amended: the non-weighted round trip holds for weight ±1; for
other weights the write path stores `atan(value·w)` rather than
`atan(value/w)`, see the counterexample): the stored non-weighted
`(angle, weight)` pair is read as local value `tan(angle) × weight`, the
weighted `(x, y)` pair is read as `y / 3`, and for weight `w = ±1` (and an
angle in the principal range) converting to the local value and writing it
back through the tangent-write path reproduces the `(angle, weight)` pair
exactly. -/
theorem tangent_canonical_and_roundtrip
    (c cw : MFnAnimCurve) (i iw : ℕ) (θ w x0 y0 : ℝ) (tq : ℚ) (kid : ℤ) (fps : ℝ)
    (hnw : c.weighted = false)
    (hAW : c.getTangentAW i false = some (θ, w))
    (hww : cw.weighted = true)
    (hXY : cw.getTangentXY iw false = some (x0, y0))
    (hfind : c.findKeyIndex tq = some i)
    (hnum : 1 < c.numKeys)
    (hθ1 : -(Real.pi / 2) < θ) (hθ2 : θ < Real.pi / 2)
    (hw1 : w = 1 ∨ w = -1) :
    (Keyframe.mkDefault.setTangent i c Axis.kAxisX Tangent.kOutTangent).outTangent.x
        = Real.tan θ * w ∧
    (Keyframe.mkDefault.setTangent iw cw Axis.kAxisX Tangent.kOutTangent).outTangent.x
        = y0 / 3 ∧
    (MotionPath.setTangentValue (Real.tan θ * w) kid c Tangent.kOutTangent tq fps).getTangentAW
        i false = some (θ, w) := by
  refine ⟨?_, ?_, ?_⟩
  · simp [Keyframe.setTangent, Keyframe.setTangentValue, hnw, hAW]
  · simp [Keyframe.setTangent, Keyframe.setTangentValue, hww, hXY]
  · obtain ⟨k, hk, hko⟩ : ∃ k, c.keys.get? i = some k ∧ k.outTangentAW = some (θ, w) := by
      unfold MFnAnimCurve.getTangentAW at hAW
      rcases hg : c.keys.get? i with _ | k
      · rw [hg] at hAW
        simp at hAW
      · rw [hg] at hAW
        simp only [Option.bind_some, Bool.false_eq_true, if_false] at hAW
        exact ⟨k, rfl, hAW⟩
    have harg : Real.tan θ * w * w = Real.tan θ := by
      rcases hw1 with rfl | rfl <;> ring
    have hnum' : ¬ c.numKeys ≤ 1 := by omega
    unfold MotionPath.setTangentValue
    rw [hfind]
    simp only [hnum', if_false, hnw, Bool.false_eq_true, not_false_iff, if_true, hAW]
    unfold MFnAnimCurve.setTangentAW MFnAnimCurve.getTangentAW
    simp only
    rw [listModify_get?_self _ _ _ _ hk]
    simp [harg, Real.arctan_tan hθ1 hθ2]

/-- Concrete non-weighted curve for the round-trip counterexample:
key 0 at time 0 stores the out tangent `(angle = π/4, weight = 1/2)`. -/
noncomputable def cexCurve : MFnAnimCurve :=
  { keys :=
      [ { time := 0, tangentsLocked := true, inTangentAW := none,
          outTangentAW := some (Real.pi / 4, 1 / 2), inTangentXY := none,
          outTangentXY := none },
        { time := 5, tangentsLocked := true, inTangentAW := none,
          outTangentAW := none, inTangentXY := none, outTangentXY := none } ],
    animatable := true, weighted := false }

/-- Claim C3, counterexample to the original round-trip statement: for the
stored pair `(π/4, 1/2)` the read gives local value `tan(π/4)·(1/2) = 1/2`,
and writing that back stores the angle `atan(1/2 · 1/2) = atan(1/4)`, which
differs from the original `π/4` by far more than 1e-6. -/
theorem tangent_roundtrip_counterexample :
    (MotionPath.setTangentValue
        ((Keyframe.mkDefault.setTangent 0 cexCurve Axis.kAxisX Tangent.kOutTangent).outTangent.x)
        0 cexCurve Tangent.kOutTangent 0 24).getTangentAW 0 false
      = some (Real.arctan (1 / 4), 1 / 2) ∧
    Real.arctan (1 / 4) < Real.pi / 4 - 1 / 1000000 := by
  constructor
  · have hread : (Keyframe.mkDefault.setTangent 0 cexCurve Axis.kAxisX
        Tangent.kOutTangent).outTangent.x = Real.tan (Real.pi / 4) * (1 / 2) := by
      simp [Keyframe.setTangent, Keyframe.setTangentValue, MFnAnimCurve.getTangentAW, cexCurve]
    rw [hread, Real.tan_pi_div_four]
    have hfind : cexCurve.findKeyIndex 0 = some 0 := by
      simp [MFnAnimCurve.findKeyIndex, cexCurve, List.findIdx?]
    have hnum' : ¬ cexCurve.numKeys ≤ 1 := by
      simp [MFnAnimCurve.numKeys, cexCurve]
    have hwf : cexCurve.weighted = false := rfl
    have hAW : cexCurve.getTangentAW 0 false = some (Real.pi / 4, 1 / 2) := by
      simp [MFnAnimCurve.getTangentAW, cexCurve]
    unfold MotionPath.setTangentValue
    rw [hfind]
    simp only [hnum', if_false, hwf, Bool.false_eq_true, not_false_iff, if_true, hAW]
    simp only [MFnAnimCurve.setTangentAW, MFnAnimCurve.getTangentAW, cexCurve, listModify]
    norm_num
  · have h1 : Real.arctan (1 / 4) < 1 / 4 := by
      have hpos : (0 : ℝ) < Real.arctan (1 / 4) := by
        rw [show (0 : ℝ) = Real.arctan 0 from Real.arctan_zero.symm]
        exact Real.arctan_strictMono (by norm_num)
      have hlt : Real.arctan (1 / 4) < Real.pi / 2 := Real.arctan_lt_pi_div_two _
      have hx := Real.lt_tan hpos hlt
      rwa [Real.tan_arctan] at hx
    have h2 : (1 / 4 : ℝ) < Real.pi / 4 - 1 / 1000000 := by
      have hpi := Real.pi_gt_three
      linarith
    linarith

/-- Witness for C3: angle 0, weight 1, on a two-key non-weighted curve, plus a
weighted curve whose key stores the vector `(2, 6)`. -/
noncomputable def witCurveNW : MFnAnimCurve :=
  { keys :=
      [ { time := 0, tangentsLocked := true, inTangentAW := none,
          outTangentAW := some (0, 1), inTangentXY := none, outTangentXY := none },
        { time := 5, tangentsLocked := true, inTangentAW := none,
          outTangentAW := none, inTangentXY := none, outTangentXY := none } ],
    animatable := true, weighted := false }

/-- Weighted curve for the C3 witness. -/
noncomputable def witCurveW : MFnAnimCurve :=
  { keys :=
      [ { time := 0, tangentsLocked := true, inTangentAW := none,
          outTangentAW := none, inTangentXY := none, outTangentXY := some (2, 6) } ],
    animatable := true, weighted := true }

theorem tangent_canonical_and_roundtrip_witness :
    (Keyframe.mkDefault.setTangent 0 witCurveNW Axis.kAxisX Tangent.kOutTangent).outTangent.x
        = Real.tan 0 * 1 ∧
    (Keyframe.mkDefault.setTangent 0 witCurveW Axis.kAxisX Tangent.kOutTangent).outTangent.x
        = 6 / 3 ∧
    (MotionPath.setTangentValue (Real.tan 0 * 1) 0 witCurveNW Tangent.kOutTangent 0
        24).getTangentAW 0 false = some (0, 1) :=
  tangent_canonical_and_roundtrip witCurveNW witCurveW 0 0 0 1 2 6 0 0 24
    rfl (by simp [MFnAnimCurve.getTangentAW, witCurveNW]) rfl
    (by simp [MFnAnimCurve.getTangentXY, witCurveW])
    (by simp [MFnAnimCurve.findKeyIndex, witCurveNW, List.findIdx?])
    (by simp [MFnAnimCurve.numKeys, witCurveNW])
    (neg_lt_zero.mpr (by positivity)) (by positivity) (Or.inl rfl)

/-! ### Claims C4/C5: closest point on the stroke polyline -/

/-- Loop state of `getClosestPointOnPolyLine`: best squared distance so far,
the clamped parameter `finalT` and the segment index of the best candidate. -/
structure ClosestAcc where
  dist : ℚ
  finalT : ℚ
  index : ℕ

/-- One iteration of the segment loop of
`MotionPathDrawContext::getClosestPointOnPolyLine` (segment from point `i−1`
to point `i`): unguarded `inv_sqrlen = 1/(dab·dab)` (over ℚ, `1/0 = 0`),
parameter `t`, skip on `t < 0`, squared point-line distance for `t ≤ 1`
and squared distance to `b` for `t > 1`, keep the closer candidate with
`finalT = t > 1 ? 1 : t`. -/
def closestStep (strokePoints : List (MVec ℚ)) (q : MVec ℚ) (acc : ClosestAcc) (i : ℕ) :
    ClosestAcc :=
  let a := strokePoints.getD (i - 1) 0
  let b := strokePoints.getD i 0
  let daq := a - q
  let dbq := b - q
  let dab := a - b
  let inv_sqrlen := 1 / (dab.x * dab.x + dab.y * dab.y)
  let t := (dab.x * daq.x + dab.y * daq.y) * inv_sqrlen
  if t < 0 then acc
  else
    let current_dist :=
      if t ≤ 1 then
        (dab.x * dbq.y - dab.y * dbq.x) * (dab.x * dbq.y - dab.y * dbq.x) * inv_sqrlen
      else dbq.x * dbq.x + dbq.y * dbq.y
    if current_dist < acc.dist then
      { dist := current_dist, finalT := if 1 < t then 1 else t, index := i }
    else acc

/-- The loop of `getClosestPointOnPolyLine`, started from the distance to the
first stroke point with `finalT = 0`, `index = 0`. -/
def closestAccResult (strokePoints : List (MVec ℚ)) (q : MVec ℚ) : ClosestAcc :=
  (List.range' 1 (strokePoints.length - 1)).foldl (closestStep strokePoints q)
    ⟨(strokePoints.getD 0 0 - q).x * (strokePoints.getD 0 0 - q).x +
       (strokePoints.getD 0 0 - q).y * (strokePoints.getD 0 0 - q).y, 0, 0⟩

/-- `MotionPathDrawContext::getClosestPointOnPolyLine(q)`: the first stroke
point when no segment produced a candidate, otherwise the interpolation
`P[index]*finalT + P[index−1]*(1−finalT)`. -/
def getClosestPointOnPolyLine (strokePoints : List (MVec ℚ)) (q : MVec ℚ) : MVec ℚ :=
  let acc := closestAccResult strokePoints q
  if acc.finalT = 0 ∧ acc.index = 0 then strokePoints.getD 0 0
  else strokePoints.getD acc.index 0 * acc.finalT +
    strokePoints.getD (acc.index - 1) 0 * (1 - acc.finalT)

/-- Loop invariant: either still the initial accumulator, or a genuine segment
candidate with a clamped parameter. -/
def ClosestInv (n : ℕ) (acc : ClosestAcc) : Prop :=
  (acc.finalT = 0 ∧ acc.index = 0) ∨
  (0 ≤ acc.finalT ∧ acc.finalT ≤ 1 ∧ 1 ≤ acc.index ∧ acc.index < n)

theorem closestStep_inv (pts : List (MVec ℚ)) (q : MVec ℚ) {n : ℕ} {acc : ClosestAcc}
    (hinv : ClosestInv n acc) {i : ℕ} (hi : 1 ≤ i ∧ i < n) :
    ClosestInv n (closestStep pts q acc i) := by
  unfold closestStep
  dsimp only
  split_ifs <;>
    first
      | exact hinv
      | (right
         dsimp only
         exact ⟨by linarith, by linarith, hi.1, hi.2⟩)

theorem foldl_closest_inv (pts : List (MVec ℚ)) (q : MVec ℚ) (n : ℕ) (l : List ℕ)
    (hmem : ∀ i ∈ l, 1 ≤ i ∧ i < n) :
    ∀ acc : ClosestAcc, ClosestInv n acc → ClosestInv n (l.foldl (closestStep pts q) acc) := by
  induction l with
  | nil => intro acc h; exact h
  | cons x xs ih =>
    intro acc h
    rw [List.foldl_cons]
    exact ih (fun i hi => hmem i (List.mem_cons_of_mem x hi)) _
      (closestStep_inv pts q h (hmem x (List.mem_cons_self x xs)))

/-- Claim C4: for every query point and every stroke polyline with at least one
point, the returned point lies on the polyline — it is a convex combination
`P[i]*t + P[i−1]*(1−t)` with `t ∈ [0,1]` of two consecutive stroke points, or
the polyline's first point when no segment yielded a valid projection. -/
theorem getClosestPointOnPolyLine_on_polyline (pts : List (MVec ℚ)) (q : MVec ℚ)
    (hne : pts ≠ []) :
    getClosestPointOnPolyLine pts q = pts.getD 0 0 ∨
    ∃ (i : ℕ) (t : ℚ), 1 ≤ i ∧ i < pts.length ∧ 0 ≤ t ∧ t ≤ 1 ∧
      getClosestPointOnPolyLine pts q =
        pts.getD i 0 * t + pts.getD (i - 1) 0 * (1 - t) := by
  have hlen : 0 < pts.length := List.length_pos.mpr hne
  have hinv : ClosestInv pts.length (closestAccResult pts q) := by
    unfold closestAccResult
    refine foldl_closest_inv pts q pts.length _ ?_ _ (Or.inl ⟨rfl, rfl⟩)
    intro i hi
    have hb := List.mem_range'_1.mp hi
    omega
  unfold getClosestPointOnPolyLine
  dsimp only
  split_ifs with hc
  · exact Or.inl rfl
  · rcases hinv with ⟨h1, h2⟩ | ⟨h1, h2, h3, h4⟩
    · exact absurd ⟨h1, h2⟩ hc
    · exact Or.inr ⟨(closestAccResult pts q).index, (closestAccResult pts q).finalT,
        h3, h4, h1, h2, rfl⟩

/-- Witness for C4: the query `(1,1)` against the two-point stroke
`(0,0)–(2,0)`. -/
theorem getClosestPointOnPolyLine_on_polyline_witness :
    getClosestPointOnPolyLine [(⟨0, 0, 0⟩ : MVec ℚ), ⟨2, 0, 0⟩] ⟨1, 1, 0⟩ =
        [(⟨0, 0, 0⟩ : MVec ℚ), ⟨2, 0, 0⟩].getD 0 0 ∨
    ∃ (i : ℕ) (t : ℚ), 1 ≤ i ∧ i < [(⟨0, 0, 0⟩ : MVec ℚ), ⟨2, 0, 0⟩].length ∧ 0 ≤ t ∧ t ≤ 1 ∧
      getClosestPointOnPolyLine [(⟨0, 0, 0⟩ : MVec ℚ), ⟨2, 0, 0⟩] ⟨1, 1, 0⟩ =
        [(⟨0, 0, 0⟩ : MVec ℚ), ⟨2, 0, 0⟩].getD i 0 * t +
          [(⟨0, 0, 0⟩ : MVec ℚ), ⟨2, 0, 0⟩].getD (i - 1) 0 * (1 - t) :=
  getClosestPointOnPolyLine_on_polyline [⟨0, 0, 0⟩, ⟨2, 0, 0⟩] ⟨1, 1, 0⟩ (by simp)

/-- The segment indices at which `getClosestPointOnPolyLine`'s
`inv_sqrlen = 1./(dab.x*dab.x + dab.y*dab.y)` divides by a zero squared
segment length (the loop has no skip for such segments). -/
def closestPointZeroLenSegments (pts : List (MVec ℚ)) : List ℕ :=
  (List.range' 1 (pts.length - 1)).filter (fun i =>
    let dab := pts.getD (i - 1) 0 - pts.getD i 0
    dab.x * dab.x + dab.y * dab.y == 0)

/-- Claim C5, counterexample: a stroke with two identical consecutive points
makes the parameter computation divide by a zero squared segment length — the
claimed near-zero-length skip does not exist in the code. -/
theorem closestPoint_zero_division_counterexample :
    closestPointZeroLenSegments [(⟨0, 0, 0⟩ : MVec ℚ), ⟨0, 0, 0⟩] ≠ [] := by
  simp [closestPointZeroLenSegments, List.range']

/-- Claim C5 (amended): the loop performs a division by a zero squared segment
length exactly at the segments whose endpoints coincide in screen `x`/`y`; in
particular, for stroke lists with no consecutive duplicate screen points no
division by zero occurs (and in this exact-arithmetic model the function is
total — no crash — in every case). -/
theorem closestPoint_no_zero_division_iff (pts : List (MVec ℚ)) :
    closestPointZeroLenSegments pts = [] ↔
    ∀ i, 1 ≤ i → i < pts.length →
      ¬((pts.getD (i - 1) 0).x = (pts.getD i 0).x ∧
        (pts.getD (i - 1) 0).y = (pts.getD i 0).y) := by
  unfold closestPointZeroLenSegments
  rw [List.filter_eq_nil_iff]
  constructor
  · intro h i h1 h2
    have hmem := h i (List.mem_range'_1.mpr ⟨h1, by omega⟩)
    intro hxy
    apply hmem
    simp only [beq_iff_eq, MVec.sub_x, MVec.sub_y, hxy.1, hxy.2]
    ring
  · intro h i hi
    have hb := List.mem_range'_1.mp hi
    simp only [beq_iff_eq, MVec.sub_x, MVec.sub_y]
    intro hz
    have hxx := mul_self_nonneg ((pts.getD (i - 1) 0).x - (pts.getD i 0).x)
    have hyy := mul_self_nonneg ((pts.getD (i - 1) 0).y - (pts.getD i 0).y)
    have hx0 : ((pts.getD (i - 1) 0).x - (pts.getD i 0).x) *
        ((pts.getD (i - 1) 0).x - (pts.getD i 0).x) = 0 := by linarith
    have hy0 : ((pts.getD (i - 1) 0).y - (pts.getD i 0).y) *
        ((pts.getD (i - 1) 0).y - (pts.getD i 0).y) = 0 := by linarith
    exact h i hb.1 (by omega)
      ⟨sub_eq_zero.mp (mul_self_eq_zero.mp hx0), sub_eq_zero.mp (mul_self_eq_zero.mp hy0)⟩

/-! ### Claim C6: arc-length spread placement -/

/-- The cumulative-segment-length walk of
`MotionPathDrawContext::getSpreadPointOnPolyLine`
(`for j: if tl > cur && tl < cur + seg[j] then break else cur += seg[j]`):
returns `(currentSegmentIndex, currentSegmentLenght)`; when the loop runs out,
the index keeps its initial value 0 while the accumulated length is returned
unchanged, exactly as in the source. -/
def spreadWalk (tl : ℚ) (segs : List ℚ) : ℕ → ℕ → ℚ → ℕ × ℚ
  | _, 0, cur => (0, cur)
  | j, r + 1, cur =>
    let s := segs.getD j 0
    if tl > cur ∧ tl < cur + s then (j, cur)
    else spreadWalk tl segs (j + 1) r (cur + s)

/-- `MotionPathDrawContext::getSpreadPointOnPolyLine(i, pointSize,
strokeLenght, segmentLenghts)`. -/
def getSpreadPointOnPolyLine (strokePoints : List (MVec ℚ)) (i pointSize : ℕ)
    (strokeLenght : ℚ) (segmentLenghts : List ℚ) : MVec ℚ :=
  if i = pointSize - 1 then
    if strokePoints.length = 0 then 0
    else strokePoints.getD (strokePoints.length - 1) 0
  else
    let tl := (((i : ℚ) + 1) / (pointSize : ℚ)) * strokeLenght
    let w := spreadWalk tl segmentLenghts 0 (strokePoints.length - 1) 0
    let t := (tl - w.2) / segmentLenghts.getD w.1 0
    strokePoints.getD (w.1 + 1) 0 * t + strokePoints.getD w.1 0 * (1 - t)

/-- Arc length of the polyline prefix up to point `j`, with respect to the
given segment lengths. -/
def cumLen (segs : List ℚ) (j : ℕ) : ℚ := (segs.take j).sum

theorem cumLen_succ (segs : List ℚ) (j : ℕ) :
    cumLen segs (j + 1) = cumLen segs j + segs.getD j 0 := by
  unfold cumLen
  rw [List.take_succ, List.sum_append]
  congr 1
  rcases hg : segs[j]? with _ | v
  · rw [List.getD_eq_getElem?_getD, hg]
    rfl
  · rw [List.getD_eq_getElem?_getD, hg]
    simp

/-- `p` is the point of the polyline at arc length `s` (for the given segment
lengths): it lies on a segment whose cumulative range contains `s`, at the
linear interpolation parameter `(s − cum_j)/seg_j`. -/
def liesAtArc (pts : List (MVec ℚ)) (segs : List ℚ) (s : ℚ) (p : MVec ℚ) : Prop :=
  ∃ j : ℕ, j + 1 < pts.length ∧ cumLen segs j ≤ s ∧ s ≤ cumLen segs (j + 1) ∧
    segs.getD j 0 ≠ 0 ∧
    p = pts.getD (j + 1) 0 * ((s - cumLen segs j) / segs.getD j 0) +
        pts.getD j 0 * (1 - (s - cumLen segs j) / segs.getD j 0)

/-- When some segment in the walk's range strictly contains `tl`, the walk
stops at the first such segment, returning its index and prefix length. -/
theorem spreadWalk_finds (tl : ℚ) (segs : List ℚ) :
    ∀ (r j : ℕ) (cur : ℚ), cur = cumLen segs j →
    (∃ m, j ≤ m ∧ m < j + r ∧ cumLen segs m < tl ∧ tl < cumLen segs (m + 1)) →
    ∃ k, j ≤ k ∧ k < j + r ∧ spreadWalk tl segs j r cur = (k, cumLen segs k) ∧
      cumLen segs k < tl ∧ tl < cumLen segs (k + 1) := by
  intro r
  induction r with
  | zero =>
    intro j cur _ h
    obtain ⟨m, h1, h2, _⟩ := h
    omega
  | succ r ih =>
    intro j cur hcur h
    obtain ⟨m, hm1, hm2, hm3, hm4⟩ := h
    rw [spreadWalk]
    by_cases hb : tl > cur ∧ tl < cur + segs.getD j 0
    · rw [if_pos hb]
      refine ⟨j, le_refl _, by omega, by rw [hcur], ?_, ?_⟩
      · rw [← hcur]
        exact hb.1
      · rw [cumLen_succ, ← hcur]
        exact hb.2
    · rw [if_neg hb]
      have hmj : m ≠ j := by
        intro he
        subst he
        exact hb ⟨by rw [hcur]; exact hm3, by rw [hcur, ← cumLen_succ]; exact hm4⟩
      obtain ⟨k, hk1, hk2, hk3, hk4, hk5⟩ := ih (j + 1) (cur + segs.getD j 0)
        (by rw [hcur, cumLen_succ]) ⟨m, by omega, by omega, hm3, hm4⟩
      exact ⟨k, by omega, by omega, hk3, hk4, hk5⟩

theorem getD_last_eq_getLast {α : Type} (l : List α) (d : α) (h : l ≠ []) :
    l.getD (l.length - 1) d = l.getLast h := by
  induction l with
  | nil => exact absurd rfl h
  | cons x xs ih =>
    cases xs with
    | nil => rfl
    | cons y ys =>
      rw [List.getLast_cons (List.cons_ne_nil y ys)]
      rw [show (x :: y :: ys).length - 1 = (y :: ys).length - 1 + 1 by simp]
      rw [List.getD_cons_succ]
      exact ih (List.cons_ne_nil y ys)

/-- Claim C6 (amended: each interior target arc length must fall strictly
inside some segment; when it coincides exactly with a cumulative segment
boundary the walk finds no segment and the item is extrapolated off the
polyline, see the counterexample): for a polyline with positive
`strokeLenght` and `pointSize ≥ 1`, interior item `i` lies on the polyline at
arc length `((i+1)/pointSize)·strokeLenght`, those arc lengths are strictly
increasing in `i`, and the last item is the polyline's final point. -/
theorem getSpreadPointOnPolyLine_spec (pts : List (MVec ℚ)) (segs : List ℚ)
    (pointSize : ℕ) (strokeLenght : ℚ)
    (hne : pts ≠ []) (hL : 0 < strokeLenght) (hps : 1 ≤ pointSize)
    (hint : ∀ i : ℕ, i < pointSize - 1 →
      ∃ m, m + 1 < pts.length ∧
        cumLen segs m < (((i : ℚ) + 1) / (pointSize : ℚ)) * strokeLenght ∧
        (((i : ℚ) + 1) / (pointSize : ℚ)) * strokeLenght < cumLen segs (m + 1)) :
    (∀ i : ℕ, i < pointSize - 1 →
      liesAtArc pts segs ((((i : ℚ) + 1) / (pointSize : ℚ)) * strokeLenght)
        (getSpreadPointOnPolyLine pts i pointSize strokeLenght segs)) ∧
    getSpreadPointOnPolyLine pts (pointSize - 1) pointSize strokeLenght segs =
      pts.getLast hne ∧
    (∀ i₁ i₂ : ℕ, i₁ < i₂ → i₂ < pointSize - 1 →
      (((i₁ : ℚ) + 1) / (pointSize : ℚ)) * strokeLenght <
        (((i₂ : ℚ) + 1) / (pointSize : ℚ)) * strokeLenght) := by
  have hlen : 0 < pts.length := List.length_pos.mpr hne
  refine ⟨?_, ?_, ?_⟩
  · intro i hi
    obtain ⟨m, hm1, hm2, hm3⟩ := hint i hi
    obtain ⟨k, _, hk2, hk3, hk4, hk5⟩ := spreadWalk_finds
      ((((i : ℚ) + 1) / (pointSize : ℚ)) * strokeLenght) segs (pts.length - 1) 0 0 rfl
      ⟨m, Nat.zero_le m, by omega, hm2, hm3⟩
    unfold getSpreadPointOnPolyLine
    rw [if_neg (by omega)]
    dsimp only
    rw [hk3]
    have hseg : segs.getD k 0 ≠ 0 := by
      have := cumLen_succ segs k
      intro hz
      rw [hz, add_zero] at this
      rw [this] at hk5
      linarith
    exact ⟨k, by omega, le_of_lt hk4, le_of_lt hk5, hseg, rfl⟩
  · unfold getSpreadPointOnPolyLine
    rw [if_pos rfl, if_neg (by omega)]
    exact getD_last_eq_getLast pts 0 hne
  · intro i₁ i₂ h12 _
    have hp : (0 : ℚ) < (pointSize : ℚ) := by
      exact_mod_cast Nat.lt_of_lt_of_le Nat.zero_lt_one hps
    have hcast : ((i₁ : ℚ) + 1) < ((i₂ : ℚ) + 1) := by
      have : (i₁ : ℚ) < (i₂ : ℚ) := by exact_mod_cast h12
      linarith
    exact mul_lt_mul_of_pos_right ((div_lt_div_iff_of_pos_right hp).mpr hcast) hL

/-- A four-point straight stroke whose caller-computed data
(`doReleaseCommon`) is `segmentLenghts = [1, 1, 0]` (the loop
`for i = 1; i < strokeNum; ++i` leaves the last slot zero-filled) and
`strokeLenght = 2`. -/
def spreadPts : List (MVec ℚ) := [⟨0, 0, 0⟩, ⟨1, 0, 0⟩, ⟨2, 0, 0⟩, ⟨3, 0, 0⟩]

/-- Claim C6, counterexample: with `pointSize = 4`, item `i = 1` has target arc
length `((1+1)/4)·2 = 1`, which coincides exactly with the cumulative boundary
between the first and second segments; the strict-inequality walk finds no
segment, accumulates the full length 2 while keeping index 0, and the item is
extrapolated to `(−1, 0)` — off the polyline, not at arc length 1. -/
theorem getSpreadPointOnPolyLine_counterexample :
    ((((1 : ℕ) : ℚ) + 1) / ((4 : ℕ) : ℚ)) * 2 = 1 ∧
    getSpreadPointOnPolyLine spreadPts 1 4 2 [1, 1, 0] = ⟨-1, 0, 0⟩ ∧
    ¬ liesAtArc spreadPts [1, 1, 0] 1 ⟨-1, 0, 0⟩ := by
  refine ⟨by norm_num, ?_, ?_⟩
  · unfold getSpreadPointOnPolyLine
    rw [if_neg (by omega)]
    have htl : ((((1 : ℕ) : ℚ) + 1) / ((4 : ℕ) : ℚ)) * 2 = 1 := by norm_num
    dsimp only
    rw [htl]
    have hwalk : spreadWalk 1 [1, 1, 0] 0 (spreadPts.length - 1) 0 = (0, 2) := by
      norm_num [spreadWalk, spreadPts]
    rw [hwalk]
    show spreadPts.getD (0 + 1) 0 * ((1 - 2) / [(1 : ℚ), 1, 0].getD 0 0) +
        spreadPts.getD 0 0 * (1 - (1 - 2) / [(1 : ℚ), 1, 0].getD 0 0) = ⟨-1, 0, 0⟩
    norm_num [spreadPts]
    exact MVec.ext_xyz (by norm_num) (by norm_num) (by norm_num)
  · rintro ⟨j, hj, h1, h2, _, h4⟩
    have hj3 : j < 3 := by
      simp only [spreadPts, List.length_cons, List.length_nil] at hj
      omega
    interval_cases j
    · have hx := congrArg MVec.x h4
      simp [spreadPts, cumLen] at hx
      exact absurd hx (by norm_num)
    · have hx := congrArg MVec.x h4
      simp [spreadPts, cumLen] at hx
      exact absurd hx (by norm_num)
    · norm_num [cumLen] at h1

/-- Witness for C6: a three-point stroke with caller data
`segmentLenghts = [1, 0]`, `strokeLenght = 1`, `pointSize = 2`; the interior
target arc length `1/2` falls strictly inside the first segment. -/
theorem getSpreadPointOnPolyLine_spec_witness :
    (∀ i : ℕ, i < 2 - 1 →
      liesAtArc [(⟨0, 0, 0⟩ : MVec ℚ), ⟨1, 0, 0⟩, ⟨2, 0, 0⟩] [1, 0]
        ((((i : ℚ) + 1) / ((2 : ℕ) : ℚ)) * 1)
        (getSpreadPointOnPolyLine [⟨0, 0, 0⟩, ⟨1, 0, 0⟩, ⟨2, 0, 0⟩] i 2 1 [1, 0])) ∧
    getSpreadPointOnPolyLine [(⟨0, 0, 0⟩ : MVec ℚ), ⟨1, 0, 0⟩, ⟨2, 0, 0⟩] (2 - 1) 2 1 [1, 0] =
      ([(⟨0, 0, 0⟩ : MVec ℚ), ⟨1, 0, 0⟩, ⟨2, 0, 0⟩].getLast (by simp)) ∧
    (∀ i₁ i₂ : ℕ, i₁ < i₂ → i₂ < 2 - 1 →
      (((i₁ : ℚ) + 1) / ((2 : ℕ) : ℚ)) * 1 < (((i₂ : ℚ) + 1) / ((2 : ℕ) : ℚ)) * 1) :=
  getSpreadPointOnPolyLine_spec [⟨0, 0, 0⟩, ⟨1, 0, 0⟩, ⟨2, 0, 0⟩] [1, 0] 2 1
    (by simp) (by norm_num) (by norm_num)
    (by
      intro i hi
      interval_cases i
      exact ⟨0, by norm_num, by norm_num [cumLen], by norm_num [cumLen]⟩)

/-! ### Claim C7: stroke direction classification and the release guard -/

/-- Maya `MVector::length()`. -/
noncomputable def MVec.length (v : MVec ℝ) : ℝ :=
  Real.sqrt (v.x * v.x + v.y * v.y + v.z * v.z)

/-- Maya `MVector` dot product (`operator*` between vectors). -/
def MVec.dot (a b : MVec ℝ) : ℝ := a.x * b.x + a.y * b.y + a.z * b.z

/-- Maya `MVector::normalize()`: scales to unit length; a zero vector is left
unchanged. -/
noncomputable def MVec.normalize (v : MVec ℝ) : MVec ℝ :=
  if MVec.length v = 0 then v
  else ⟨v.x / MVec.length v, v.y / MVec.length v, v.z / MVec.length v⟩

/-- `dot1` of `MotionPathDrawContext::getStrokeDirection`: the normalized
screen vector toward the previous key (zero at the first key), dotted with the
stroke's net direction vector.  `screenPosOf` models
`getkeyScreenPosition` (viewport projection of the key's world position). -/
noncomputable def strokeDot1 (screenPosOf : ℚ → MVec ℝ) (directionalVector : MVec ℝ)
    (keys : List ℚ) (selectedIndex : ℕ) : ℝ :=
  let pos := screenPosOf (keys.getD selectedIndex 0)
  let pp := if selectedIndex = 0 then (0 : MVec ℝ)
            else screenPosOf (keys.getD (selectedIndex - 1) 0) - pos
  MVec.dot (MVec.normalize pp) directionalVector

/-- `dot2` of `getStrokeDirection`: same for the next key (zero at the last
key). -/
noncomputable def strokeDot2 (screenPosOf : ℚ → MVec ℝ) (directionalVector : MVec ℝ)
    (keys : List ℚ) (selectedIndex : ℕ) : ℝ :=
  let pos := screenPosOf (keys.getD selectedIndex 0)
  let ap := if selectedIndex = keys.length - 1 then (0 : MVec ℝ)
            else screenPosOf (keys.getD (selectedIndex + 1) 0) - pos
  MVec.dot (MVec.normalize ap) directionalVector

/-- `MotionPathDrawContext::getStrokeDirection`: returns 0 only in the two
literal cases `dot1 == 0 && dot2 < 0` and `dot2 == 0 && dot1 < 0`; otherwise
`dot1 > dot2 ? -1 : 1`. -/
noncomputable def getStrokeDirection (screenPosOf : ℚ → MVec ℝ) (directionalVector : MVec ℝ)
    (keys : List ℚ) (selectedIndex : ℕ) : ℤ :=
  if strokeDot1 screenPosOf directionalVector keys selectedIndex = 0 ∧
      strokeDot2 screenPosOf directionalVector keys selectedIndex < 0 then 0
  else if strokeDot2 screenPosOf directionalVector keys selectedIndex = 0 ∧
      strokeDot1 screenPosOf directionalVector keys selectedIndex < 0 then 0
  else if strokeDot1 screenPosOf directionalVector keys selectedIndex >
      strokeDot2 screenPosOf directionalVector keys selectedIndex then -1 else 1

/-- One collected candidate key of a stroke redistribution (`StrokeCache`). -/
structure StrokeCache where
  originalScreenPosition : MVec ℝ
  originalWorldPosition : MVec ℝ
  time : ℚ

/-- The candidate-walk loop of `MotionPathDrawContext::doReleaseCommon`:
walk from the grabbed key in `direction`, tolerating up to `MAX_SKIPPED = 5`
consecutive distance increases (kept in `tempCache`, merged into `cache` when
the distance decreases again), always stopping at a boundary key.  `wpos`
models `getKeyWorldPosition`.  The fuel argument only reifies the loop's
termination (the C++ loop terminates through its boundary checks). -/
noncomputable def strokeWalkAux (screenPosOf wpos : ℚ → MVec ℝ) (lastStrokePos : MVec ℝ)
    (keys : List ℚ) (direction : ℤ) :
    ℕ → ℤ → ℕ → ℝ → List StrokeCache → List StrokeCache → List StrokeCache
  | 0, _, _, _, cache, _ => cache
  | fuel + 1, i, skipped, distance, cache, tempCache =>
    let pos := screenPosOf (keys.getD i.toNat 0)
    let thisDistance := MVec.length (lastStrokePos - pos)
    if distance < thisDistance then
      let skipped' := skipped + 1
      if 5 < skipped' then cache
      else if i = 0 ∨ i = (keys.length : ℤ) - 1 then cache
      else
        strokeWalkAux screenPosOf wpos lastStrokePos keys direction fuel (i + direction)
          skipped' distance cache
          (tempCache ++ [⟨pos, wpos (keys.getD i.toNat 0), keys.getD i.toNat 0⟩])
    else
      let cache := if 0 < tempCache.length then cache ++ tempCache else cache
      let cache := cache ++ [⟨pos, wpos (keys.getD i.toNat 0), keys.getD i.toNat 0⟩]
      if i = 0 ∨ i = (keys.length : ℤ) - 1 then cache
      else strokeWalkAux screenPosOf wpos lastStrokePos keys direction fuel (i + direction)
        0 thisDistance cache []

/-- The candidate keys collected by the stroke-release path: empty whenever the
direction is classified as ambiguous. -/
noncomputable def strokeReleaseCandidates (screenPosOf wpos : ℚ → MVec ℝ) (keys : List ℚ)
    (selectedIndex : ℕ) (directionalVector lastStrokePos : MVec ℝ) : List StrokeCache :=
  let direction := getStrokeDirection screenPosOf directionalVector keys selectedIndex
  if direction ≠ 0 then
    strokeWalkAux screenPosOf wpos lastStrokePos keys direction (keys.length + 1)
      ((selectedIndex : ℤ) + direction) 0
      (MVec.length (lastStrokePos - screenPosOf (keys.getD selectedIndex 0))) [] []
  else []

/-- A curve mutation issued by the gesture: a key removal or a key insertion. -/
inductive CurveMutation
  | deleteKey (t : ℚ)
  | addKey (t : ℚ) (p : MVec ℝ)

/-- The curve mutations of the stroke-release path of `doReleaseCommon`:
when candidates exist, all candidate keys are deleted (in reverse order) and
re-inserted at their new world positions (`newWorldPos` models the
closest-point/spread placement, unprojection and camera-space correction). -/
noncomputable def doReleaseStrokeMutations (screenPosOf wpos : ℚ → MVec ℝ)
    (newWorldPos : StrokeCache → MVec ℝ) (keys : List ℚ) (selectedIndex : ℕ)
    (directionalVector lastStrokePos : MVec ℝ) : List CurveMutation :=
  if getStrokeDirection screenPosOf directionalVector keys selectedIndex ≠ 0 then
    let cache := strokeReleaseCandidates screenPosOf wpos keys selectedIndex
      directionalVector lastStrokePos
    if 0 < cache.length then
      (cache.reverse.map (fun c => CurveMutation.deleteKey c.time)) ++
        (cache.map (fun c => CurveMutation.addKey c.time (newWorldPos c)))
    else []
  else []

/-- Claim C7 (amended: the code classifies the direction as ambiguous not when
both dot products are non-positive, but exactly when one of them is zero and
the other negative; in that case no candidates are collected and the gesture
mutates no curve). -/
theorem getStrokeDirection_zero_iff (screenPosOf wpos : ℚ → MVec ℝ)
    (newWorldPos : StrokeCache → MVec ℝ) (keys : List ℚ) (selectedIndex : ℕ)
    (directionalVector lastStrokePos : MVec ℝ) :
    (getStrokeDirection screenPosOf directionalVector keys selectedIndex = 0 ↔
      (strokeDot1 screenPosOf directionalVector keys selectedIndex = 0 ∧
        strokeDot2 screenPosOf directionalVector keys selectedIndex < 0) ∨
      (strokeDot2 screenPosOf directionalVector keys selectedIndex = 0 ∧
        strokeDot1 screenPosOf directionalVector keys selectedIndex < 0)) ∧
    (getStrokeDirection screenPosOf directionalVector keys selectedIndex = 0 →
      strokeReleaseCandidates screenPosOf wpos keys selectedIndex directionalVector
        lastStrokePos = [] ∧
      doReleaseStrokeMutations screenPosOf wpos newWorldPos keys selectedIndex
        directionalVector lastStrokePos = []) := by
  constructor
  · unfold getStrokeDirection
    split_ifs with h1 h2 h3
    · exact iff_of_true rfl (Or.inl h1)
    · exact iff_of_true rfl (Or.inr h2)
    · exact iff_of_false (by decide) (not_or.mpr ⟨h1, h2⟩)
    · exact iff_of_false (by decide) (not_or.mpr ⟨h1, h2⟩)
  · intro h
    unfold doReleaseStrokeMutations strokeReleaseCandidates
    rw [h]
    simp

/-- Concrete screen-position oracle for the C7 counterexample. -/
noncomputable def sposCex : ℚ → MVec ℝ := fun t =>
  if t = 0 then ⟨1, 0, 0⟩ else if t = 1 then ⟨0, 0, 0⟩ else ⟨2, 0, 0⟩

/-- Claim C7, counterexample: for the grabbed middle key of `[0, 1, 2]` with
both neighbours in direction `+x` of it and a net stroke direction of `−x`,
both dot products are −1 (non-positive), yet `getStrokeDirection` returns 1,
not 0 — the walk then runs and the gesture is not a guaranteed no-op. -/
theorem getStrokeDirection_counterexample :
    strokeDot1 sposCex ⟨-1, 0, 0⟩ [0, 1, 2] 1 ≤ 0 ∧
    strokeDot2 sposCex ⟨-1, 0, 0⟩ [0, 1, 2] 1 ≤ 0 ∧
    getStrokeDirection sposCex ⟨-1, 0, 0⟩ [0, 1, 2] 1 = 1 := by
  have hsq4 : Real.sqrt 4 = 2 := by
    rw [show (4 : ℝ) = 2 ^ 2 by norm_num]
    exact Real.sqrt_sq (by norm_num)
  have hd1 : strokeDot1 sposCex ⟨-1, 0, 0⟩ [0, 1, 2] 1 = -1 := by
    unfold strokeDot1
    norm_num [sposCex, MVec.normalize, MVec.length, MVec.dot, Real.sqrt_one]
  have hd2 : strokeDot2 sposCex ⟨-1, 0, 0⟩ [0, 1, 2] 1 = -1 := by
    unfold strokeDot2
    norm_num [sposCex, MVec.normalize, MVec.length, MVec.dot, hsq4]
  refine ⟨by rw [hd1]; norm_num, by rw [hd2]; norm_num, ?_⟩
  unfold getStrokeDirection
  rw [hd1, hd2]
  norm_num

/-! ### Claim C8: the keyframe cache build and rotation-only keys -/

/-- `TANGENT_TIME_DELTA` (0.01 time units). -/
def tangentTimeDelta : ℚ := 1 / 100

/-- The per-track keyframe-cache state consumed by `cacheKeyFrames`. -/
structure KFState where
  keyframesCache : List (ℚ × Keyframe)
  displayStartTime : ℚ
  displayEndTime : ℚ
  isDrawing : Bool
  endDrawingTime : ℚ
  selectedKeyTimes : List ℚ
  isWeighted : Bool

/-- Lookup in the time→keyframe map. -/
def kfLookup : List (ℚ × Keyframe) → ℚ → Option Keyframe
  | [], _ => none
  | (t', k) :: rest, t => if t' = t then some k else kfLookup rest t

/-- `Keyframe* p = &keyframesCache[t]; …mutate…`: apply `f` to the record at
`t`, default-inserting it first when absent (`std::map::operator[]`); the list
is kept in ascending time order like the `std::map`. -/
noncomputable def kfModify : List (ℚ × Keyframe) → ℚ → (Keyframe → Keyframe) →
    List (ℚ × Keyframe)
  | [], t, f => [(t, f Keyframe.mkDefault)]
  | (t', k) :: rest, t, f =>
    if t = t' then (t', f k) :: rest
    else if t < t' then (t, f Keyframe.mkDefault) :: (t', k) :: rest
    else (t', k) :: kfModify rest t f

/-- The key loop of `MotionPath::expandKeyFramesCache`, iterating the curve
keys in index order: keys before the display start are skipped, a key past the
end time breaks the loop, and each in-window key inserts/updates the composite
record at its time — translation axes set tangents, the per-axis key id and the
lock flag; rotation axes set only the time stamp and the rotation key id. -/
noncomputable def expandKeysAux (displayStartTime endTime : ℚ) (curve : MFnAnimCurve)
    (axisName : Axis) (isTranslate : Bool) :
    List CurveKey → ℕ → List (ℚ × Keyframe) → List (ℚ × Keyframe)
  | [], _, cache => cache
  | k :: rest, i, cache =>
    if displayStartTime ≤ k.time then
      if k.time ≤ endTime then
        expandKeysAux displayStartTime endTime curve axisName isTranslate rest (i + 1)
          (kfModify cache k.time (fun kf =>
            if isTranslate then
              let kf := { kf with time := k.time }
              let kf := kf.setTangent i curve axisName Tangent.kInTangent
              let kf := kf.setTangent i curve axisName Tangent.kOutTangent
              let kf := kf.setKeyId (i : ℤ) axisName
              if kf.tangentsLocked then { kf with tangentsLocked := k.tangentsLocked } else kf
            else
              let kf := { kf with time := k.time }
              kf.setRotKeyId (i : ℤ) axisName))
      else cache
    else expandKeysAux displayStartTime endTime curve axisName isTranslate rest (i + 1) cache

namespace MotionPath

/-- `MotionPath::expandKeyFramesCache(curve, axisName, isTranslate)`. -/
noncomputable def expandKeyFramesCache (s : KFState) (curve : MFnAnimCurve)
    (axisName : Axis) (isTranslate : Bool) : KFState :=
  if curve.numKeys = 0 then s
  else
    let endTime := if s.isDrawing then s.endDrawingTime else s.displayEndTime
    let m := expandKeysAux s.displayStartTime endTime curve axisName isTranslate
      curve.keys 0 s.keyframesCache
    { s with keyframesCache := m }

/-- `MotionPath::showTangent`. -/
def showTangent (time : ℚ) (firstId : ℤ) (firstTime : ℚ) (secondId : ℤ)
    (secondTime : ℚ) : Bool :=
  !((firstId == -1 && secondId == -1) || (time == firstTime && time == secondTime))

end MotionPath

/-- `curve.time(i).as(uiUnit())`, defaulting to 0 on an out-of-range read (the
source ignores the `MStatus`). -/
def MFnAnimCurve.timeAtD (c : MFnAnimCurve) (i : ℕ) : ℚ :=
  ((c.keys.get? i).map (fun k => k.time)).getD 0

namespace MotionPath

/-- `MotionPath::setShowInOutTangents(curveTX, curveTY, curveTZ)`: early return
when no translation axis is animated; otherwise hide/show the boundary-key
handles via `showTangent` (note `keyframesCache[minTime]` default-inserts when
absent, as in the source). -/
noncomputable def setShowInOutTangents (s : KFState) (cTX cTY cTZ : MFnAnimCurve) : KFState :=
  if cTX.numKeys = 0 ∧ cTY.numKeys = 0 ∧ cTZ.numKeys = 0 then s
  else
    let minTimeX := cTX.timeAtD 0
    let maxTimeX := cTX.timeAtD (cTX.numKeys - 1)
    let minTimeY := cTY.timeAtD 0
    let maxTimeY := cTY.timeAtD (cTY.numKeys - 1)
    let minTimeZ := cTZ.timeAtD 0
    let maxTimeZ := cTZ.timeAtD (cTZ.numKeys - 1)
    let m := s.keyframesCache
    let m := if s.displayStartTime ≤ minTimeX ∧ minTimeX ≤ s.displayEndTime then
        kfModify m minTimeX (fun kf =>
          { kf with showInTangent := showTangent minTimeX kf.yKeyId minTimeY kf.zKeyId minTimeZ })
      else m
    let m := if s.displayStartTime ≤ minTimeY ∧ minTimeY ≤ s.displayEndTime then
        kfModify m minTimeY (fun kf =>
          { kf with showInTangent := showTangent minTimeY kf.xKeyId minTimeX kf.zKeyId minTimeZ })
      else m
    let m := if s.displayStartTime ≤ minTimeZ ∧ minTimeZ ≤ s.displayEndTime then
        kfModify m minTimeZ (fun kf =>
          { kf with showInTangent := showTangent minTimeZ kf.xKeyId minTimeX kf.yKeyId minTimeY })
      else m
    let m := if s.displayStartTime ≤ maxTimeX ∧ maxTimeX ≤ s.displayEndTime then
        kfModify m maxTimeX (fun kf =>
          { kf with showOutTangent := showTangent maxTimeX kf.yKeyId maxTimeY kf.zKeyId maxTimeZ })
      else m
    let m := if s.displayStartTime ≤ maxTimeY ∧ maxTimeY ≤ s.displayEndTime then
        kfModify m maxTimeY (fun kf =>
          { kf with showOutTangent := showTangent maxTimeY kf.xKeyId maxTimeX kf.zKeyId maxTimeZ })
      else m
    let m := if s.displayStartTime ≤ maxTimeZ ∧ maxTimeZ ≤ s.displayEndTime then
        kfModify m maxTimeZ (fun kf =>
          { kf with showOutTangent := showTangent maxTimeZ kf.xKeyId maxTimeX kf.yKeyId maxTimeY })
      else m
    { s with keyframesCache := m }

end MotionPath

/-- External data consumed by the id-assignment/world-refresh loop at the end
of `cacheKeyFrames`: cached local positions, application of the cached parent
matrix (after `ensureParentAndPivotMatrixAtTime`), and the camera-space
transform through the viewport's camera cache. -/
structure KFRefreshOracles where
  getCachedPos : ℚ → MVec ℝ
  multByPMatrixAt : ℚ → MVec ℝ → MVec ℝ
  cameraSpace : Bool
  cachePtrValid : Bool
  camTransformAt : ℚ → MVec ℝ → MVec ℝ

/-- The final loop of `MotionPath::cacheKeyFrames`: assign sequential ids in
map (time) order, mark tool-selected records, apply the live-draw tangent
override, and refresh positions and world-space tangent data.  The camera-mode
`continue` with a null camera cache skips the rest of the body including the
`i += 1`, as in the source.  (The second null-cache guard inside the
tangent-resample blocks is unreachable: it re-tests the same loop-constant
condition that the first guard already returned on.) -/
noncomputable def refreshKeyA (o : KFRefreshOracles) (sel : List ℚ) (drawing : Bool)
    (i : ℤ) (k : Keyframe) : Keyframe :=
  let k := { k with id := i }
  let k := { k with selectedFromTool := if k.time ∈ sel then true else k.selectedFromTool }
  let k := { k with showInTangent := if drawing then false else k.showInTangent,
                    showOutTangent := if drawing then false else k.showOutTangent }
  let k := { k with position := o.getCachedPos k.time }
  { k with worldPosition := o.multByPMatrixAt k.time k.position }

/-- The remainder of the loop body, reached when the camera-space guard does
not `continue`: camera transform of the world position, world tangent
endpoints, and the tangent-handle resample for non-weighted curves. -/
noncomputable def refreshKeyB (o : KFRefreshOracles) (isWeighted : Bool) (k : Keyframe) :
    Keyframe :=
  let k := { k with worldPosition :=
      if o.cameraSpace then o.camTransformAt k.time k.worldPosition else k.worldPosition }
  let k := { k with inTangentWorld := o.multByPMatrixAt k.time (-k.inTangent + k.position) }
  let k := { k with outTangentWorld := o.multByPMatrixAt k.time (k.outTangent + k.position) }
  let k := { k with inTangentWorldFromCurve :=
      if k.showInTangent then
        (if isWeighted then k.inTangentWorld
         else
           let prevTime := k.time - tangentTimeDelta
           let inWorldPosition :=
             if ¬ o.cameraSpace then
               o.multByPMatrixAt prevTime (o.getCachedPos prevTime) - k.worldPosition
             else
               o.camTransformAt prevTime (o.multByPMatrixAt prevTime (o.getCachedPos prevTime))
                 - k.worldPosition
           MVec.normalize inWorldPosition * MVec.length k.inTangent + k.worldPosition)
      else k.inTangentWorldFromCurve }
  { k with outTangentWorldFromCurve :=
      if k.showOutTangent then
        (if isWeighted then k.outTangentWorld
         else
           let afterTime := k.time + tangentTimeDelta
           let outWorldPosition :=
             if ¬ o.cameraSpace then
               o.multByPMatrixAt afterTime (o.getCachedPos afterTime) - k.worldPosition
             else
               o.camTransformAt afterTime (o.multByPMatrixAt afterTime
                 (o.getCachedPos afterTime)) - k.worldPosition
           MVec.normalize outWorldPosition * MVec.length k.outTangent + k.worldPosition)
      else k.outTangentWorldFromCurve }

noncomputable def refreshLoop (o : KFRefreshOracles) (sel : List ℚ)
    (drawing isWeighted : Bool) : List (ℚ × Keyframe) → ℤ → List (ℚ × Keyframe)
  | [], _ => []
  | (t, k) :: rest, i =>
    let k := refreshKeyA o sel drawing i k
    if o.cameraSpace ∧ ¬ o.cachePtrValid then
      (t, k) :: refreshLoop o sel drawing isWeighted rest i
    else
      (t, refreshKeyB o isWeighted k) :: refreshLoop o sel drawing isWeighted rest (i + 1)

namespace MotionPath

/-- `MotionPath::cacheKeyFrames`: per-axis expansion of the three translation
curves, then — when rotation keyframes are shown — of the three rotation
curves, boundary-tangent visibility, and the id-assignment/refresh loop. -/
noncomputable def cacheKeyFrames (s : KFState) (o : KFRefreshOracles)
    (cTX cTY cTZ cRX cRY cRZ : MFnAnimCurve) (showRotationKeyFrames : Bool) : KFState :=
  let s := if cTX.animatable then expandKeyFramesCache s cTX Axis.kAxisX true else s
  let s := if cTY.animatable then expandKeyFramesCache s cTY Axis.kAxisY true else s
  let s := if cTZ.animatable then expandKeyFramesCache s cTZ Axis.kAxisZ true else s
  let s := if showRotationKeyFrames then
      let s := if cRX.animatable then expandKeyFramesCache s cRX Axis.kAxisX false else s
      let s := if cRY.animatable then expandKeyFramesCache s cRY Axis.kAxisY false else s
      let s := if cRZ.animatable then expandKeyFramesCache s cRZ Axis.kAxisZ false else s
      s
    else s
  let s := setShowInOutTangents s cTX cTY cTZ
  let m := refreshLoop o s.selectedKeyTimes s.isDrawing s.isWeighted s.keyframesCache 0
  { s with keyframesCache := m }

end MotionPath

theorem expandKeyFramesCache_empty (s : KFState) (c : MFnAnimCurve) (ax : Axis) (tr : Bool)
    (h : c.keys = []) : MotionPath.expandKeyFramesCache s c ax tr = s := by
  unfold MotionPath.expandKeyFramesCache
  rw [if_pos (by simp [MFnAnimCurve.numKeys, h])]

/-- The refresh loop on a single record keeps the record at its time and does
not touch the per-axis key-id fields or the time stamp. -/
theorem refreshLoop_single (o : KFRefreshOracles) (sel : List ℚ) (drawing isw : Bool)
    (t : ℚ) (kf : Keyframe) :
    ∃ kf' : Keyframe, refreshLoop o sel drawing isw [(t, kf)] 0 = [(t, kf')] ∧
      kf'.xRotKeyId = kf.xRotKeyId ∧ kf'.xKeyId = kf.xKeyId ∧ kf'.yKeyId = kf.yKeyId ∧
      kf'.zKeyId = kf.zKeyId ∧ kf'.time = kf.time := by
  by_cases hcc : o.cameraSpace = true ∧ ¬ o.cachePtrValid = true
  · refine ⟨refreshKeyA o sel drawing 0 kf, ?_, rfl, rfl, rfl, rfl, rfl⟩
    rw [refreshLoop, if_pos hcc, refreshLoop]
  · refine ⟨refreshKeyB o isw (refreshKeyA o sel drawing 0 kf), ?_, rfl, rfl, rfl, rfl, rfl⟩
    rw [refreshLoop, if_neg hcc, refreshLoop]

/-- Claim C8: for an object whose only animation key in the display window is
one rotation-X key (all translation curves and the other rotation curves have
no keys at all), the keyframe-cache build still creates and retains a
composite record at that key's time, with the rotation key id set (to the
key's index 0) and all translation key ids equal to −1.  Hypotheses fix the
build configuration the claim speaks about: rotation keyframes shown,
animatable rotation curve, key time inside the display window. -/
theorem rotation_only_key_retained (s : KFState) (o : KFRefreshOracles)
    (cE cRX : MFnAnimCurve) (k : CurveKey)
    (hempty : s.keyframesCache = [])
    (hE : cE.keys = [])
    (hRX : cRX.keys = [k])
    (hRXanim : cRX.animatable = true)
    (hwin1 : s.displayStartTime ≤ k.time)
    (hwin2 : k.time ≤ (if s.isDrawing then s.endDrawingTime else s.displayEndTime)) :
    ∃ kf : Keyframe,
      kfLookup (MotionPath.cacheKeyFrames s o cE cE cE cRX cE cE true).keyframesCache k.time
        = some kf ∧
      kf.xRotKeyId = 0 ∧ kf.xKeyId = -1 ∧ kf.yKeyId = -1 ∧ kf.zKeyId = -1 ∧
      kf.time = k.time := by
  have hEE : ∀ (s' : KFState) (ax : Axis) (tr : Bool),
      MotionPath.expandKeyFramesCache s' cE ax tr = s' :=
    fun s' ax tr => expandKeyFramesCache_empty s' cE ax tr hE
  have hshow : ∀ s' : KFState, MotionPath.setShowInOutTangents s' cE cE cE = s' := by
    intro s'
    unfold MotionPath.setShowInOutTangents
    rw [if_pos]
    simp [MFnAnimCurve.numKeys, hE]
  have hfields : ∀ (s' : KFState) (c : MFnAnimCurve) (ax : Axis) (tr : Bool),
      (MotionPath.expandKeyFramesCache s' c ax tr).selectedKeyTimes = s'.selectedKeyTimes ∧
      (MotionPath.expandKeyFramesCache s' c ax tr).isDrawing = s'.isDrawing ∧
      (MotionPath.expandKeyFramesCache s' c ax tr).isWeighted = s'.isWeighted := by
    intro s' c ax tr
    unfold MotionPath.expandKeyFramesCache
    split_ifs <;> exact ⟨rfl, rfl, rfl⟩
  have hcache : (MotionPath.expandKeyFramesCache s cRX Axis.kAxisX false).keyframesCache =
      [(k.time, ({ Keyframe.mkDefault with time := k.time }).setRotKeyId 0 Axis.kAxisX)] := by
    unfold MotionPath.expandKeyFramesCache
    rw [if_neg (by simp [MFnAnimCurve.numKeys, hRX])]
    dsimp only
    rw [hRX, hempty]
    simp only [expandKeysAux, if_pos hwin1, if_pos hwin2, kfModify]
    rfl
  unfold MotionPath.cacheKeyFrames
  simp only [hEE, ite_self, hRXanim, if_true, eq_self_iff_true]
  rw [hshow]
  rw [hcache, (hfields s cRX Axis.kAxisX false).1, (hfields s cRX Axis.kAxisX false).2.1,
    (hfields s cRX Axis.kAxisX false).2.2]
  obtain ⟨kf', hloop, h1, h2, h3, h4, h5⟩ := refreshLoop_single o s.selectedKeyTimes
    s.isDrawing s.isWeighted k.time (({ Keyframe.mkDefault with time := k.time
      }).setRotKeyId 0 Axis.kAxisX)
  rw [hloop]
  refine ⟨kf', by rw [kfLookup, if_pos rfl], ?_, ?_, ?_, ?_, ?_⟩
  · rw [h1]; rfl
  · rw [h2]; rfl
  · rw [h3]; rfl
  · rw [h4]; rfl
  · rw [h5]; rfl

/-- Witness for C8: a rotation-X key at time 10, display window `[0, 100]`,
nothing else keyed anywhere. -/
noncomputable def kfStateWit : KFState :=
  { keyframesCache := [], displayStartTime := 0, displayEndTime := 100, isDrawing := false,
    endDrawingTime := 0, selectedKeyTimes := [], isWeighted := false }

/-- Empty animation curve for the C8 witness. -/
def emptyCurveWit : MFnAnimCurve := { keys := [], animatable := true, weighted := false }

/-- Rotation-X curve with a single key at time 10 for the C8 witness. -/
def rotCurveWit : MFnAnimCurve :=
  { keys :=
      [ { time := 10, tangentsLocked := true, inTangentAW := none,
          outTangentAW := none, inTangentXY := none, outTangentXY := none } ],
    animatable := true, weighted := false }

/-- Identity refresh oracles for the C8 witness (world-space display). -/
noncomputable def kfOraclesWit : KFRefreshOracles :=
  { getCachedPos := fun _ => 0, multByPMatrixAt := fun _ v => v, cameraSpace := false,
    cachePtrValid := true, camTransformAt := fun _ v => v }

theorem rotation_only_key_retained_witness :
    ∃ kf : Keyframe,
      kfLookup (MotionPath.cacheKeyFrames kfStateWit kfOraclesWit emptyCurveWit emptyCurveWit
        emptyCurveWit rotCurveWit emptyCurveWit emptyCurveWit true).keyframesCache
        ((⟨10, true, none, none, none, none⟩ : CurveKey)).time = some kf ∧
      kf.xRotKeyId = 0 ∧ kf.xKeyId = -1 ∧ kf.yKeyId = -1 ∧ kf.zKeyId = -1 ∧
      kf.time = (⟨10, true, none, none, none, none⟩ : CurveKey).time :=
  rotation_only_key_retained kfStateWit kfOraclesWit emptyCurveWit rotCurveWit
    ⟨10, true, none, none, none, none⟩ rfl rfl (by rw [rotCurveWit]) rfl
    (by norm_num [kfStateWit])
    (by norm_num [kfStateWit])

end MotionPathSpec
